import Mathlib

/-!
Verification of the hexagram transformation search engine of the `iching`
repository (`src/iching.rs`, `src/iching_analyzer.rs`).

The Rust data model is embedded shallowly:

* `[Line; 6]` arrays become `List Line` (all catalogue members have length 6,
  which is proved and threaded through as an invariant);
* the `HashMap` indices `HEXAGRAM_INDEX` / `TRIGRAM_INDEX` become linear
  lookups over the static catalogues (the catalogues have pairwise distinct
  line patterns, which is proved, so the map and the scan agree);
* `HashMap::get(..).unwrap()` is modelled by `Option.getD` with a poison
  element whose `number` field is `0`; `0` never occurs as a catalogue
  number, so "the result is a catalogue member" is exactly "the unwrap did
  not panic";
* the unbounded `while` loop of the breadth-first search becomes a
  fuel-indexed recursion; the fuel `bfsFuel` strictly exceeds the number of
  iterations the Rust loop can perform (proved via a decreasing measure), so
  the fueled function and the Rust loop compute the same result;
* machine integers: `u64` / `u128` accumulators are modelled as `Nat` with
  wrapping (`% 2 ^ 64`, `% 2 ^ 128`) where the source performs arithmetic on
  them; `usize` indices and lengths are plain `Nat`.

The `Hexagram` methods `flip_trigrams`, `use_nuclear_trigrams`,
`mix_trigrams_bottom_first` and `mix_trigrams_top_first` are called by
`iching_analyzer.rs` but their bodies are not part of the sources at hand;
they are modelled from the specification (and the doc comments of the
`SearchOperation` enum, which are part of the sources), as marked on each
definition.
-/

namespace Iching

/-- The type of line in a hexagram (`Line` in `iching.rs`): `Open` is yin,
`Closed` is yang. -/
inductive Line where
  | Open : Line
  | Closed : Line
deriving DecidableEq

/-- `Line::inverse`: flips the line to the opposite value. -/
def Line.inverse : Line → Line
  | Line.Open => Line.Closed
  | Line.Closed => Line.Open

/-- `impl From for Line` (named `fromNat` since `Line.ofNat` is reserved by the enum derivation): `0` is `Open`, anything else `Closed`. -/
def Line.fromNat (n : Nat) : Line :=
  match n with
  | 0 => Line.Open
  | _ => Line.Closed

/-- A trigram (`Trigram` in `iching.rs`): a number 1–8 and three lines,
bottom line first. -/
structure Trigram where
  number : Nat
  lines : List Line
deriving DecidableEq

/-- The static table `TRIGRAMS` of `iching.rs`. -/
def TRIGRAM_TABLE : List (Nat × List Nat) :=
  [(1, [1, 1, 1]),
   (2, [1, 0, 0]),
   (3, [0, 1, 0]),
   (4, [0, 0, 1]),
   (5, [0, 0, 0]),
   (6, [0, 1, 1]),
   (7, [1, 0, 1]),
   (8, [1, 1, 0])]

/-- `create_trigram`: builds a `Trigram` from a number and raw lines. -/
def create_trigram (number : Nat) (lines : List Nat) : Trigram :=
  ⟨number, lines.map Line.fromNat⟩

/-- The list of all trigrams, as inserted into `TRIGRAM_INDEX`. -/
def TRIGRAMS : List Trigram :=
  TRIGRAM_TABLE.map fun x => create_trigram x.1 x.2

/-- `TRIGRAM_INDEX.get(&lines)`: the key sets of the hash map are exactly the
catalogue patterns (pairwise distinct, proved below), so hash lookup equals a
scan of the catalogue. -/
def findTrigram (lines : List Line) : Option Trigram :=
  TRIGRAMS.find? fun t => decide (t.lines = lines)

/-- The position of a line in a hexagram (`HexagramLine`). -/
inductive HexagramLine where
  | First | Second | Third | Fourth | Fifth | Sixth
deriving DecidableEq

/-- `HexagramLine::line_to_index`. -/
def HexagramLine.line_to_index : HexagramLine → Nat
  | HexagramLine.First => 0
  | HexagramLine.Second => 1
  | HexagramLine.Third => 2
  | HexagramLine.Fourth => 3
  | HexagramLine.Fifth => 4
  | HexagramLine.Sixth => 5

/-- A hexagram (`Hexagram` in `iching.rs`): a number 1–64 and six lines,
bottom line first. -/
structure Hexagram where
  number : Nat
  lines : List Line
deriving DecidableEq

/-- The static table `HEXAGRAMS` of `iching.rs`, verbatim. -/
def HEXAGRAM_TABLE : List (Nat × List Nat) :=
  [(1, [1, 1, 1, 1, 1, 1]),
   (2, [0, 0, 0, 0, 0, 0]),
   (3, [1, 0, 0, 0, 1, 0]),
   (4, [0, 1, 0, 0, 0, 1]),
   (5, [1, 1, 1, 0, 1, 0]),
   (6, [0, 1, 0, 1, 1, 1]),
   (7, [0, 1, 0, 0, 0, 0]),
   (8, [0, 0, 0, 0, 1, 0]),
   (9, [1, 1, 1, 0, 1, 1]),
   (10, [1, 1, 0, 1, 1, 1]),
   (11, [1, 1, 1, 0, 0, 0]),
   (12, [0, 0, 0, 1, 1, 1]),
   (13, [1, 0, 1, 1, 1, 1]),
   (14, [1, 1, 1, 1, 0, 1]),
   (15, [0, 0, 1, 0, 0, 0]),
   (16, [0, 0, 0, 1, 0, 0]),
   (17, [1, 0, 0, 1, 1, 0]),
   (18, [0, 1, 1, 0, 0, 1]),
   (19, [1, 1, 0, 0, 0, 0]),
   (20, [0, 0, 0, 0, 1, 1]),
   (21, [1, 0, 0, 1, 0, 1]),
   (22, [1, 0, 1, 0, 0, 1]),
   (23, [0, 0, 0, 0, 0, 1]),
   (24, [1, 0, 0, 0, 0, 0]),
   (25, [1, 0, 0, 1, 1, 1]),
   (26, [1, 1, 1, 0, 0, 1]),
   (27, [1, 0, 0, 0, 0, 1]),
   (28, [0, 1, 1, 1, 1, 0]),
   (29, [0, 1, 0, 0, 1, 0]),
   (30, [1, 0, 1, 1, 0, 1]),
   (31, [0, 0, 1, 1, 1, 0]),
   (32, [0, 1, 1, 1, 0, 0]),
   (33, [0, 0, 1, 1, 1, 1]),
   (34, [1, 1, 1, 1, 0, 0]),
   (35, [0, 0, 0, 1, 0, 1]),
   (36, [1, 0, 1, 0, 0, 0]),
   (37, [1, 0, 1, 0, 1, 1]),
   (38, [1, 1, 0, 1, 0, 1]),
   (39, [0, 0, 1, 0, 1, 0]),
   (40, [0, 1, 0, 1, 0, 0]),
   (41, [1, 1, 0, 0, 0, 1]),
   (42, [1, 0, 0, 0, 1, 1]),
   (43, [1, 1, 1, 1, 1, 0]),
   (44, [0, 1, 1, 1, 1, 1]),
   (45, [0, 0, 0, 1, 1, 0]),
   (46, [0, 1, 1, 0, 0, 0]),
   (47, [0, 1, 0, 1, 1, 0]),
   (48, [0, 1, 1, 0, 1, 0]),
   (49, [1, 0, 1, 1, 1, 0]),
   (50, [0, 1, 1, 1, 0, 1]),
   (51, [1, 0, 0, 1, 0, 0]),
   (52, [0, 0, 1, 0, 0, 1]),
   (53, [0, 0, 1, 0, 1, 1]),
   (54, [1, 1, 0, 1, 0, 0]),
   (55, [1, 0, 1, 1, 0, 0]),
   (56, [0, 0, 1, 1, 0, 1]),
   (57, [0, 1, 1, 0, 1, 1]),
   (58, [1, 1, 0, 1, 1, 0]),
   (59, [0, 1, 0, 0, 1, 1]),
   (60, [1, 1, 0, 0, 1, 0]),
   (61, [1, 1, 0, 0, 1, 1]),
   (62, [0, 0, 1, 1, 0, 0]),
   (63, [1, 0, 1, 0, 1, 0]),
   (64, [0, 1, 0, 1, 0, 1])]

/-- `create_hexagram`: builds a `Hexagram` from a number and raw lines. -/
def create_hexagram (number : Nat) (lines : List Nat) : Hexagram :=
  ⟨number, lines.map Line.fromNat⟩

/-- The list of all hexagrams, as inserted into `HEXAGRAM_INDEX`. -/
def HEXAGRAMS : List Hexagram :=
  HEXAGRAM_TABLE.map fun x => create_hexagram x.1 x.2

/-- `HEXAGRAM_INDEX.get(&lines)`: hash lookup modelled as a scan of the
catalogue (whose line patterns are pairwise distinct, proved below). -/
def findHexagram (lines : List Line) : Option Hexagram :=
  HEXAGRAMS.find? fun h => decide (h.lines = lines)

/-- `HEXAGRAM_INDEX.get(&lines).copied().unwrap()`: the panic of `unwrap` is
modelled by the poison hexagram number `0`, which never occurs in the
catalogue. -/
def hexLookup (lines : List Line) : Hexagram :=
  (findHexagram lines).getD ⟨0, lines⟩

/-- The trigram-number half of `Hexagram::trigrams`: `TRIGRAM_INDEX.get(..)
.map(|t| t.number).unwrap()`, with poison number `0` for the panic. -/
def trigramNumber (lines : List Line) : Nat :=
  ((findTrigram lines).map Trigram.number).getD 0

/-- `Hexagram::trigrams`: the bottom trigram is lines 0–2, the top trigram
lines 3–5, each re-numbered through the trigram index. -/
def Hexagram.trigrams (h : Hexagram) : Trigram × Trigram :=
  (⟨trigramNumber (h.lines.take 3), h.lines.take 3⟩,
   ⟨trigramNumber (h.lines.drop 3), h.lines.drop 3⟩)

/-- `Hexagram::num_line_changes`: the count of positions where the two line
arrays differ (`zip` + `filter` + `count`). -/
def Hexagram.num_line_changes (h other : Hexagram) : Nat :=
  ((h.lines.zip other.lines).filter fun x => decide (¬x.1 = x.2)).length

/-- `Hexagram::inverse`: inverts all six lines and looks the result up. -/
def Hexagram.inverse (h : Hexagram) : Hexagram :=
  hexLookup (h.lines.map Line.inverse)

/-- `Hexagram::inverse_bottom_trigram`. -/
def Hexagram.inverse_bottom_trigram (h : Hexagram) : Hexagram :=
  hexLookup ((h.trigrams.1.lines.map Line.inverse) ++ h.trigrams.2.lines)

/-- `Hexagram::inverse_top_trigram`. -/
def Hexagram.inverse_top_trigram (h : Hexagram) : Hexagram :=
  hexLookup (h.trigrams.1.lines ++ (h.trigrams.2.lines.map Line.inverse))

/-- `lines[index] = lines[index].inverse()` at a given array index. -/
def flipIdx : List Line → Nat → List Line
  | [], _ => []
  | a :: t, 0 => a.inverse :: t
  | a :: t, i + 1 => a :: flipIdx t i

/-- `Hexagram::inverse_line`: inverts the line at the given position. -/
def Hexagram.inverse_line (h : Hexagram) (line : HexagramLine) : Hexagram :=
  hexLookup (flipIdx h.lines line.line_to_index)

/-- `Hexagram::reverse`: reverses the order of the six lines. -/
def Hexagram.reverse (h : Hexagram) : Hexagram :=
  hexLookup h.lines.reverse

/-- `Hexagram::reverse_trigrams`: `[t2,t1,t0,b2,b1,b0]`. -/
def Hexagram.reverse_trigrams (h : Hexagram) : Hexagram :=
  hexLookup (h.trigrams.2.lines.reverse ++ h.trigrams.1.lines.reverse)

/-- `Hexagram::reverse_bottom_trigram`: `[b2,b1,b0,t0,t1,t2]`. -/
def Hexagram.reverse_bottom_trigram (h : Hexagram) : Hexagram :=
  hexLookup (h.trigrams.1.lines.reverse ++ h.trigrams.2.lines)

/-- `Hexagram::reverse_top_trigram`: `[b0,b1,b2,t2,t1,t0]`. -/
def Hexagram.reverse_top_trigram (h : Hexagram) : Hexagram :=
  hexLookup (h.trigrams.1.lines ++ h.trigrams.2.lines.reverse)

/-- `Hexagram::mirror_trigrams`: `[b2,b1,b0,t2,t1,t0]`. -/
def Hexagram.mirror_trigrams (h : Hexagram) : Hexagram :=
  hexLookup (h.trigrams.1.lines.reverse ++ h.trigrams.2.lines.reverse)

/-- Modelled from the spec: `Hexagram::flip_trigrams` is called by the
analyzer but its body is not among the sources at hand; per the spec
("swap bottom/top trigrams") and the `FlipTrigrams` doc comment ("Flip the
bottom and top trigrams") the new lines are `[t0,t1,t2,b0,b1,b2]`. -/
def Hexagram.flip_trigrams (h : Hexagram) : Hexagram :=
  hexLookup (h.trigrams.2.lines ++ h.trigrams.1.lines)

/-- Modelled from the spec: `Hexagram::use_nuclear_trigrams` is called by the
analyzer but its body is not among the sources at hand; per the spec the
bottom nuclear trigram is lines 1–3 and the top nuclear trigram lines 2–4
(0-based), and the operation stacks them: `[l1,l2,l3,l2,l3,l4]`. -/
def Hexagram.use_nuclear_trigrams (h : Hexagram) : Hexagram :=
  hexLookup
    [h.lines.getD 1 Line.Open, h.lines.getD 2 Line.Open, h.lines.getD 3 Line.Open,
     h.lines.getD 2 Line.Open, h.lines.getD 3 Line.Open, h.lines.getD 4 Line.Open]

/-- Modelled from the spec: `Hexagram::mix_trigrams_bottom_first` is called
by the analyzer but its body is not among the sources at hand; per the
`MixTrigramsBottomFirst` doc comment the lines interleave bottom-first:
`[b0,t0,b1,t1,b2,t2]`. -/
def Hexagram.mix_trigrams_bottom_first (h : Hexagram) : Hexagram :=
  hexLookup
    [h.trigrams.1.lines.getD 0 Line.Open, h.trigrams.2.lines.getD 0 Line.Open,
     h.trigrams.1.lines.getD 1 Line.Open, h.trigrams.2.lines.getD 1 Line.Open,
     h.trigrams.1.lines.getD 2 Line.Open, h.trigrams.2.lines.getD 2 Line.Open]

/-- Modelled from the spec: `Hexagram::mix_trigrams_top_first` is called by
the analyzer but its body is not among the sources at hand; per the
`MixTrigramsTopFirst` doc comment the lines interleave top-first:
`[t0,b0,t1,b1,t2,b2]`. -/
def Hexagram.mix_trigrams_top_first (h : Hexagram) : Hexagram :=
  hexLookup
    [h.trigrams.2.lines.getD 0 Line.Open, h.trigrams.1.lines.getD 0 Line.Open,
     h.trigrams.2.lines.getD 1 Line.Open, h.trigrams.1.lines.getD 1 Line.Open,
     h.trigrams.2.lines.getD 2 Line.Open, h.trigrams.1.lines.getD 2 Line.Open]

/-- The operations of `iching_analyzer.rs` (`SearchOperation`). -/
inductive SearchOperation where
  | NoOp : SearchOperation
  | InverseLine : HexagramLine → SearchOperation
  | InverseBottomTrigram : SearchOperation
  | InverseTopTrigram : SearchOperation
  | ReverseBottomTrigram : SearchOperation
  | ReverseTopTrigram : SearchOperation
  | FlipTrigrams : SearchOperation
  | MirrorTrigrams : SearchOperation
  | NuclearTrigrams : SearchOperation
  | InverseHexagram : SearchOperation
  | ReverseHexagram : SearchOperation
  | MixTrigramsBottomFirst : SearchOperation
  | MixTrigramsTopFirst : SearchOperation
deriving DecidableEq

/-- `SearchOperation::all_operations`, in the exact source order (note that
`NoOp` is not in the list). -/
def SearchOperation.all_operations : List SearchOperation :=
  [SearchOperation.InverseLine HexagramLine.First,
   SearchOperation.InverseLine HexagramLine.Second,
   SearchOperation.InverseLine HexagramLine.Third,
   SearchOperation.InverseLine HexagramLine.Fourth,
   SearchOperation.InverseLine HexagramLine.Fifth,
   SearchOperation.InverseLine HexagramLine.Sixth,
   SearchOperation.InverseBottomTrigram,
   SearchOperation.InverseTopTrigram,
   SearchOperation.ReverseBottomTrigram,
   SearchOperation.ReverseTopTrigram,
   SearchOperation.FlipTrigrams,
   SearchOperation.MirrorTrigrams,
   SearchOperation.NuclearTrigrams,
   SearchOperation.InverseHexagram,
   SearchOperation.ReverseHexagram,
   SearchOperation.MixTrigramsBottomFirst,
   SearchOperation.MixTrigramsTopFirst]

/-- `SearchOperation::apply`. -/
def SearchOperation.apply : SearchOperation → Hexagram → Hexagram
  | SearchOperation.NoOp, h => h
  | SearchOperation.InverseLine pos, h => h.inverse_line pos
  | SearchOperation.InverseBottomTrigram, h => h.inverse_bottom_trigram
  | SearchOperation.InverseTopTrigram, h => h.inverse_top_trigram
  | SearchOperation.ReverseBottomTrigram, h => h.reverse_bottom_trigram
  | SearchOperation.ReverseTopTrigram, h => h.reverse_top_trigram
  | SearchOperation.FlipTrigrams, h => h.flip_trigrams
  | SearchOperation.MirrorTrigrams, h => h.mirror_trigrams
  | SearchOperation.NuclearTrigrams, h => h.use_nuclear_trigrams
  | SearchOperation.InverseHexagram, h => h.inverse
  | SearchOperation.ReverseHexagram, h => h.reverse
  | SearchOperation.MixTrigramsBottomFirst, h => h.mix_trigrams_bottom_first
  | SearchOperation.MixTrigramsTopFirst, h => h.mix_trigrams_top_first

/-- A path between two hexagrams (`type Path` in `iching_analyzer.rs`). -/
abbrev Path := List (Hexagram × SearchOperation)

/-- `count_line_changes`: sums `path[i].0.num_line_changes(&path[i-1].0)` for
`i` in `1..path.len()`.  Accumulated in a `u64`; the sum of a path of `n`
edges is at most `6 * n`, far below `2 ^ 64` for any path produced by the
search (paths have pairwise distinct catalogue hexagrams, hence at most 64
entries), so the accumulator is modelled as a plain `Nat`. -/
def count_line_changes : Path → Nat
  | [] => 0
  | [_] => 0
  | a :: b :: t => b.1.num_line_changes a.1 + count_line_changes (b :: t)

/-- `u64::MAX`, the sentinel of `find_least_lines_changed`. -/
def UMAX : Nat := 2 ^ 64 - 1

/-- The body of the first loop of `find_least_lines_changed`: updates the
running minimum `m` with the line-change count of one path. -/
def minStep (m : Nat) (p : Path) : Nat :=
  if m = UMAX ∨ count_line_changes p < m then count_line_changes p else m

/-- The first loop of `HexagramSearcher::find_least_lines_changed`: finds
the minimum line-change count of the given paths, with `u64::MAX` as the
initial sentinel. -/
def minLinesChanged (paths : List Path) : Nat :=
  paths.foldl minStep UMAX

/-- The second loop of `HexagramSearcher::find_least_lines_changed`: keeps
the paths whose line-change count equals the minimum. -/
def findLeastLinesChanged (paths : List Path) : List Path :=
  paths.filter fun p => decide (count_line_changes p = minLinesChanged paths)

/-- The poison entry behind `path.last().unwrap()`; queue paths are never
empty, so it is never exposed. -/
def poisonEntry : Hexagram × SearchOperation := (⟨0, []⟩, SearchOperation.NoOp)

/-- `let (current_hexagram, _) = path.last().unwrap()`. -/
def curHex (path : Path) : Hexagram :=
  (path.getLast?.getD poisonEntry).1

/-- The inner `for operation in &ops` loop of `find_shortest_paths`: applies
each operation to the current hexagram, skips results already on the path,
and splits the extensions into queue entries (first component) and recorded
shortest paths (second component, extensions hitting `goal`), both in
operation order. -/
def expandStep (goal : Hexagram) (path : Path) (cur : Hexagram) :
    List SearchOperation → List Path × List Path
  | [] => ([], [])
  | op :: rest =>
    let nh := op.apply cur
    if nh ∈ path.map Prod.fst then
      expandStep goal path cur rest
    else
      let np := path ++ [(nh, op)]
      let r := expandStep goal path cur rest
      if nh = goal then (r.1, np :: r.2) else (np :: r.1, r.2)

/-- `!shortest_paths.is_empty() && path.len() >= shortest_paths[0].len()`. -/
def breakCond (shortest : List Path) (path : Path) : Bool :=
  match shortest with
  | [] => false
  | s :: _ => decide (s.length ≤ path.length)

/-- The `while !queue.is_empty()` loop of `find_shortest_paths`, as a
fuel-indexed recursion.  `pop_front` takes the head of the queue list,
`push_back` appends at the end.  With fuel at least `bfsFuel` the fuel never
runs out before the loop exits (see the measure lemmas below), so the
recursion computes exactly what the Rust loop computes. -/
def bfsLoop (goal : Hexagram) : Nat → List Path → List Path → List Path
  | 0, _, shortest => shortest
  | _ + 1, [], shortest => shortest
  | fuel + 1, path :: rest, shortest =>
    if breakCond shortest path then
      shortest
    else
      let r := expandStep goal path (curHex path) SearchOperation.all_operations
      bfsLoop goal fuel (rest ++ r.1) (shortest ++ r.2)

/-- Fuel that strictly exceeds the number of iterations the search loop can
perform: every queue path has pairwise distinct catalogue hexagrams, so its
measure weight is at least `18 ^ 1`, and each iteration strictly decreases
the total measure, which starts at `18 ^ 64`. -/
def bfsFuel : Nat := 18 ^ 65

/-- `HexagramSearcher` of `iching_analyzer.rs`. -/
structure HexagramSearcher where
  start_hexagram : Hexagram
  end_hexagram : Hexagram
deriving DecidableEq

/-- `HEXAGRAMS[n - 1]` materialised as a hexagram; the poison `⟨0, []⟩`
models the index panic, impossible after validation. -/
def hexAt (n : Nat) : Hexagram :=
  (HEXAGRAMS.get? (n - 1)).getD ⟨0, []⟩

/-- `HexagramSearcher::new`: validates both numbers against `1..=64` (start
first), then builds the searcher from the catalogue entries.  `Result` is
modelled as `Option`. -/
def HexagramSearcher.new (start e : Nat) : Option HexagramSearcher :=
  if ¬(1 ≤ start ∧ start ≤ 64) then none
  else if ¬(1 ≤ e ∧ e ≤ 64) then none
  else some ⟨hexAt start, hexAt e⟩

/-- `HexagramSearcher::find_shortest_paths`. -/
def HexagramSearcher.find_shortest_paths (s : HexagramSearcher) (all : Bool) :
    List Path :=
  let res := bfsLoop s.end_hexagram bfsFuel
    [[(s.start_hexagram, SearchOperation.NoOp)]] []
  if all then res else findLeastLinesChanged res

/-- The result of a sequence analysis (`SequenceAnalysis`). -/
structure SequenceAnalysis where
  sequence : List Nat
  shortest_paths : List (List Path)
  total_ops : Nat
  total_line_changes : Nat
  total_paths : Nat
deriving DecidableEq

/-- The consecutive pairs `(sequence[i-1], sequence[i])` visited by the
`for i in 1..sequence.len()` loop of `SequenceAnalysis::new`. -/
def consecutivePairs (l : List Nat) : List (Nat × Nat) :=
  l.zip l.tail

/-- The first loop of `SequenceAnalysis::new`: builds a searcher for every
consecutive pair (propagating the validation error with `?`) and collects
each pair's filtered shortest paths. -/
def searchPairs : List (Nat × Nat) → Option (List (List Path))
  | [] => some []
  | pr :: rest =>
    match HexagramSearcher.new pr.1 pr.2 with
    | none => none
    | some s =>
      match searchPairs rest with
      | none => none
      | some tl => some (s.find_shortest_paths false :: tl)

/-- The `paths[0]` indexing shared by the `total_ops` and
`total_line_changes` accumulations of `SequenceAnalysis::new`; `none` models
the out-of-bounds panic on an empty path list. -/
def firstsOf : List (List Path) → Option (List Path)
  | [] => some []
  | paths :: rest =>
    match paths.head? with
    | none => none
    | some p =>
      match firstsOf rest with
      | none => none
      | some tl => some (p :: tl)

/-- Wrapping `u64` sum, as the `sum()` of a `u64` iterator computes it. -/
def sum64 (l : List Nat) : Nat :=
  l.foldl (fun a b => (a + b) % 2 ^ 64) 0

/-- Wrapping `u128` product, as the `product()` of a `u128` iterator
computes it. -/
def prod128 (l : List Nat) : Nat :=
  l.foldl (fun a b => a * b % 2 ^ 128) 1

/-- The aggregation phase of `SequenceAnalysis::new`: extracts every
`paths[0]` (the panic on an empty list is `firstsOf` returning `none`),
sums `paths[0].len() - 1` (edge counts) and `count_line_changes(&paths[0])`
into `u64` totals and multiplies the per-pair path counts into a `u128`
total. -/
def SequenceAnalysis.finish (sequence : List Nat)
    (sp : List (List Path)) : Option SequenceAnalysis :=
  match firstsOf sp with
  | none => none
  | some firsts =>
    some
      { sequence := sequence
        shortest_paths := sp
        total_ops := sum64 (firsts.map fun p => p.length - 1)
        total_line_changes := sum64 (firsts.map count_line_changes)
        total_paths := prod128 (sp.map List.length) }

/-- `SequenceAnalysis::new`: searches every consecutive pair (propagating
validation errors), then aggregates the totals. -/
def SequenceAnalysis.new (sequence : List Nat) : Option SequenceAnalysis :=
  match searchPairs (consecutivePairs sequence) with
  | none => none
  | some sp => SequenceAnalysis.finish sequence sp

/-- Every catalogue hexagram has exactly six lines. -/
theorem lines_length_of_mem : ∀ h ∈ HEXAGRAMS, h.lines.length = 6 := by decide

/-- The catalogue line patterns are pairwise distinct, so the hash map
`HEXAGRAM_INDEX` and the linear scan `findHexagram` agree. -/
theorem HEXAGRAMS_lines_nodup : (HEXAGRAMS.map Hexagram.lines).Nodup := by decide

/-- Catalogue numbers are positive, so the poison number `0` marks a failed
lookup. -/
theorem HEXAGRAMS_number_pos : ∀ h ∈ HEXAGRAMS, 1 ≤ h.number := by decide

/-- A list of six lines always splits into six elements. -/
theorem exists_six (l : List Line) (hl : l.length = 6) :
    ∃ a b c d e f, l = [a, b, c, d, e, f] := by
  rcases l with _ | ⟨a, l⟩
  · simp at hl
  rcases l with _ | ⟨b, l⟩
  · simp at hl
  rcases l with _ | ⟨c, l⟩
  · simp at hl
  rcases l with _ | ⟨d, l⟩
  · simp at hl
  rcases l with _ | ⟨e, l⟩
  · simp at hl
  rcases l with _ | ⟨f, l⟩
  · simp at hl
  rcases l with _ | ⟨g, l⟩
  · exact ⟨a, b, c, d, e, f, rfl⟩
  · simp [List.length_cons] at hl

/-- The catalogue is complete: every six-line pattern occurs in it. -/
theorem findHexagram_isSome (l : List Line) (hl : l.length = 6) :
    (findHexagram l).isSome := by
  obtain ⟨a, b, c, d, e, f, rfl⟩ := exists_six l hl
  cases a <;> cases b <;> cases c <;> cases d <;> cases e <;> cases f <;> decide

theorem findHexagram_mem {l : List Line} {h : Hexagram}
    (hf : findHexagram l = some h) : h ∈ HEXAGRAMS :=
  List.mem_of_find?_eq_some hf

theorem findHexagram_lines {l : List Line} {h : Hexagram}
    (hf : findHexagram l = some h) : h.lines = l := by
  have := List.find?_some hf
  simpa using this

theorem hexLookup_mem {l : List Line} (hl : l.length = 6) :
    hexLookup l ∈ HEXAGRAMS := by
  have hs := findHexagram_isSome l hl
  unfold hexLookup
  rcases hf : findHexagram l with _ | h
  · rw [hf] at hs; simp at hs
  · simpa using findHexagram_mem hf

theorem hexLookup_lines {l : List Line} (hl : l.length = 6) :
    (hexLookup l).lines = l := by
  have hs := findHexagram_isSome l hl
  unfold hexLookup
  rcases hf : findHexagram l with _ | h
  · rw [hf] at hs; simp at hs
  · simpa using findHexagram_lines hf

/-- `find?` with an injectively mapped key returns the element itself. -/
theorem find?_map_eq_self {α β : Type} [DecidableEq β] (f : α → β) :
    ∀ (l : List α) (a : α), (l.map f).Nodup → a ∈ l →
      l.find? (fun x => decide (f x = f a)) = some a := by
  intro l
  induction l with
  | nil => intro a _ ha; simp at ha
  | cons b t ih =>
    intro a hnd ha
    rw [List.map_cons, List.nodup_cons] at hnd
    by_cases hb : f b = f a
    · have hab : b = a := by
        rcases List.mem_cons.mp ha with rfl | hat
        · rfl
        · exact absurd (hb ▸ List.mem_map_of_mem f hat) hnd.1
      subst hab
      simp [List.find?]
    · have hat : a ∈ t := by
        rcases List.mem_cons.mp ha with rfl | hat
        · exact absurd rfl hb
        · exact hat
      rw [List.find?]
      simp only [hb, decide_eq_true_eq, if_neg]
      · exact ih a hnd.2 hat

/-- Looking up the lines of a catalogue hexagram returns that hexagram. -/
theorem hexLookup_self {h : Hexagram} (hm : h ∈ HEXAGRAMS) :
    hexLookup h.lines = h := by
  unfold hexLookup findHexagram
  rw [find?_map_eq_self Hexagram.lines HEXAGRAMS h HEXAGRAMS_lines_nodup hm]
  rfl

/-- Catalogue hexagrams are determined by their lines. -/
theorem hexagram_eq_of_lines_eq {g h : Hexagram} (hg : g ∈ HEXAGRAMS)
    (hh : h ∈ HEXAGRAMS) (he : g.lines = h.lines) : g = h := by
  have h1 := hexLookup_self hg
  rw [he, hexLookup_self hh] at h1
  exact h1.symm

theorem flipIdx_length : ∀ (l : List Line) (i : Nat),
    (flipIdx l i).length = l.length := by
  intro l
  induction l with
  | nil => intro i; rfl
  | cons a t ih =>
    intro i
    cases i with
    | zero => rfl
    | succ j => simp [flipIdx, ih j]

/-- Every search operation maps catalogue hexagrams to catalogue hexagrams:
the relevant `unwrap` calls never panic on the reachable states. -/
theorem apply_mem {h : Hexagram} (hm : h ∈ HEXAGRAMS)
    (op : SearchOperation) : op.apply h ∈ HEXAGRAMS := by
  have h6 := lines_length_of_mem h hm
  cases op with
  | NoOp => exact hm
  | InverseLine pos =>
    exact hexLookup_mem (by rw [flipIdx_length, h6])
  | InverseBottomTrigram =>
    refine hexLookup_mem ?_
    simp only [Hexagram.trigrams, List.length_append, List.length_map,
      List.length_take, List.length_drop, h6]
    omega
  | InverseTopTrigram =>
    refine hexLookup_mem ?_
    simp only [Hexagram.trigrams, List.length_append, List.length_map,
      List.length_take, List.length_drop, h6]
    omega
  | ReverseBottomTrigram =>
    refine hexLookup_mem ?_
    simp only [Hexagram.trigrams, List.length_append, List.length_reverse,
      List.length_take, List.length_drop, h6]
    omega
  | ReverseTopTrigram =>
    refine hexLookup_mem ?_
    simp only [Hexagram.trigrams, List.length_append, List.length_reverse,
      List.length_take, List.length_drop, h6]
    omega
  | FlipTrigrams =>
    refine hexLookup_mem ?_
    simp only [Hexagram.trigrams, List.length_append, List.length_take,
      List.length_drop, h6]
    omega
  | MirrorTrigrams =>
    refine hexLookup_mem ?_
    simp only [Hexagram.trigrams, List.length_append, List.length_reverse,
      List.length_take, List.length_drop, h6]
    omega
  | NuclearTrigrams => exact hexLookup_mem rfl
  | InverseHexagram =>
    exact hexLookup_mem (by rw [List.length_map, h6])
  | ReverseHexagram =>
    exact hexLookup_mem (by rw [List.length_reverse, h6])
  | MixTrigramsBottomFirst => exact hexLookup_mem rfl
  | MixTrigramsTopFirst => exact hexLookup_mem rfl

/-- Every queue extension produced by the operation loop appends one edge to
the expanded path, is not already on the path, and misses the goal. -/
theorem expandStep_fst_mem (goal : Hexagram) (path : Path) (cur : Hexagram) :
    ∀ (ops : List SearchOperation) (q : Path),
      q ∈ (expandStep goal path cur ops).1 →
      ∃ op ∈ ops, q = path ++ [(op.apply cur, op)] ∧
        op.apply cur ∉ path.map Prod.fst ∧ op.apply cur ≠ goal := by
  intro ops
  induction ops with
  | nil => intro q hq; simp [expandStep] at hq
  | cons op rest ih =>
    intro q hq
    simp only [expandStep] at hq
    by_cases hmem : op.apply cur ∈ path.map Prod.fst
    · rw [if_pos hmem] at hq
      obtain ⟨op', hop', hrest⟩ := ih q hq
      exact ⟨op', List.mem_cons_of_mem _ hop', hrest⟩
    · rw [if_neg hmem] at hq
      by_cases hg : op.apply cur = goal
      · rw [if_pos hg] at hq
        obtain ⟨op', hop', hrest⟩ := ih q hq
        exact ⟨op', List.mem_cons_of_mem _ hop', hrest⟩
      · rw [if_neg hg] at hq
        rcases List.mem_cons.mp hq with rfl | hq
        · exact ⟨op, List.mem_cons_self op rest, rfl, hmem, hg⟩
        · obtain ⟨op', hop', hrest⟩ := ih q hq
          exact ⟨op', List.mem_cons_of_mem _ hop', hrest⟩

/-- Every recorded shortest path produced by the operation loop appends the
goal (not previously on the path) to the expanded path. -/
theorem expandStep_snd_mem (goal : Hexagram) (path : Path) (cur : Hexagram) :
    ∀ (ops : List SearchOperation) (q : Path),
      q ∈ (expandStep goal path cur ops).2 →
      ∃ op ∈ ops, q = path ++ [(goal, op)] ∧
        goal ∉ path.map Prod.fst ∧ op.apply cur = goal := by
  intro ops
  induction ops with
  | nil => intro q hq; simp [expandStep] at hq
  | cons op rest ih =>
    intro q hq
    simp only [expandStep] at hq
    by_cases hmem : op.apply cur ∈ path.map Prod.fst
    · rw [if_pos hmem] at hq
      obtain ⟨op', hop', hrest⟩ := ih q hq
      exact ⟨op', List.mem_cons_of_mem _ hop', hrest⟩
    · rw [if_neg hmem] at hq
      by_cases hg : op.apply cur = goal
      · rw [if_pos hg] at hq
        rcases List.mem_cons.mp hq with rfl | hq
        · exact ⟨op, List.mem_cons_self op rest, by rw [hg], hg ▸ hmem, hg⟩
        · obtain ⟨op', hop', hrest⟩ := ih q hq
          exact ⟨op', List.mem_cons_of_mem _ hop', hrest⟩
      · rw [if_neg hg] at hq
        obtain ⟨op', hop', hrest⟩ := ih q hq
        exact ⟨op', List.mem_cons_of_mem _ hop', hrest⟩

/-- The operation loop enqueues at most one extension per operation. -/
theorem expandStep_fst_length_le (goal : Hexagram) (path : Path)
    (cur : Hexagram) : ∀ ops : List SearchOperation,
      (expandStep goal path cur ops).1.length ≤ ops.length := by
  intro ops
  induction ops with
  | nil => simp [expandStep]
  | cons op rest ih =>
    simp only [expandStep]
    by_cases hmem : op.apply cur ∈ path.map Prod.fst
    · rw [if_pos hmem]
      exact Nat.le_succ_of_le ih
    · rw [if_neg hmem]
      by_cases hg : op.apply cur = goal
      · rw [if_pos hg]
        exact Nat.le_succ_of_le ih
      · rw [if_neg hg]
        simpa using ih

/-- If some operation in the list reaches the goal and the goal is not on
the path, the operation loop records at least one shortest path. -/
theorem expandStep_snd_ne (goal : Hexagram) (path : Path) (cur : Hexagram) :
    ∀ ops : List SearchOperation, ∀ op ∈ ops, op.apply cur = goal →
      goal ∉ path.map Prod.fst → (expandStep goal path cur ops).2 ≠ [] := by
  intro ops
  induction ops with
  | nil => intro op hop; simp at hop
  | cons op0 rest ih =>
    intro op hop hgoal hnot
    simp only [expandStep]
    rcases List.mem_cons.mp hop with rfl | hop
    · rw [if_neg (hgoal ▸ hnot), if_pos hgoal]
      simp
    · by_cases hmem : op0.apply cur ∈ path.map Prod.fst
      · rw [if_pos hmem]
        exact ih op hop hgoal hnot
      · rw [if_neg hmem]
        by_cases hg : op0.apply cur = goal
        · rw [if_pos hg]
          simp
        · rw [if_neg hg]
          exact ih op hop hgoal hnot

/-- An unskipped extension either lands in the queue additions or the goal
has been recorded by the loop. -/
theorem expandStep_mem_or_snd_ne (goal : Hexagram) (path : Path)
    (cur : Hexagram) : ∀ ops : List SearchOperation, ∀ op ∈ ops,
      op.apply cur ∉ path.map Prod.fst →
      (path ++ [(op.apply cur, op)]) ∈ (expandStep goal path cur ops).1 ∨
        (expandStep goal path cur ops).2 ≠ [] := by
  intro ops
  induction ops with
  | nil => intro op hop; simp at hop
  | cons op0 rest ih =>
    intro op hop hnot
    simp only [expandStep]
    rcases List.mem_cons.mp hop with rfl | hop
    · rw [if_neg hnot]
      by_cases hg : op.apply cur = goal
      · rw [if_pos hg]
        right
        simp
      · rw [if_neg hg]
        left
        simp
    · by_cases hmem : op0.apply cur ∈ path.map Prod.fst
      · rw [if_pos hmem]
        exact ih op hop hnot
      · rw [if_neg hmem]
        by_cases hg : op0.apply cur = goal
        · rw [if_pos hg]
          right
          simp
        · rw [if_neg hg]
          rcases ih op hop hnot with hin | hne
          · left
            exact List.mem_cons_of_mem _ hin
          · right
            simpa using hne

/-- If the goal already lies on the path, no extension of the path is ever
recorded as a shortest path. -/
theorem expandStep_snd_nil (goal : Hexagram) (path : Path) (cur : Hexagram)
    (hmem : goal ∈ path.map Prod.fst) :
    ∀ ops : List SearchOperation, (expandStep goal path cur ops).2 = [] := by
  intro ops
  induction ops with
  | nil => simp [expandStep]
  | cons op rest ih =>
    simp only [expandStep]
    by_cases hm : op.apply cur ∈ path.map Prod.fst
    · rw [if_pos hm]
      exact ih
    · rw [if_neg hm]
      by_cases hg : op.apply cur = goal
      · exact absurd (hg ▸ hmem) hm
      · rw [if_neg hg]
        exact ih

/-- If the goal hexagram lies on every queued path and nothing has been
recorded, the search loop can never record anything: it returns `[]`.  This
is exactly the `start == end` situation, where the start hexagram — equal to
the goal — is on every path from the first entry on. -/
theorem bfsLoop_eq_nil (goal : Hexagram) :
    ∀ (fuel : Nat) (queue : List Path),
      (∀ p ∈ queue, goal ∈ p.map Prod.fst) →
      bfsLoop goal fuel queue [] = [] := by
  intro fuel
  induction fuel with
  | zero => intro queue _; rfl
  | succ n ih =>
    intro queue hq
    cases queue with
    | nil => rfl
    | cons path rest =>
      simp only [bfsLoop]
      have hb : breakCond [] path = false := rfl
      rw [hb]
      simp only [Bool.false_eq_true, if_false]
      have hg : goal ∈ path.map Prod.fst := hq path (List.mem_cons_self path rest)
      rw [expandStep_snd_nil goal path (curHex path) hg]
      simp only [List.append_nil]
      apply ih
      intro p hp
      rcases List.mem_append.mp hp with h1 | h2
      · exact hq p (List.mem_cons_of_mem _ h1)
      · obtain ⟨op, _, rfl, _, _⟩ :=
          expandStep_fst_mem goal path (curHex path) _ p h2
        rw [List.map_append]
        exact List.mem_append_left _ hg

/-- `find_shortest_paths` returns no path at all when the start and end
hexagrams coincide: the goal is on the initial path already, so the
cycle-avoidance check skips every extension that reaches it. -/
theorem fsp_nil_of_eq (s : HexagramSearcher)
    (h : s.start_hexagram = s.end_hexagram) (all : Bool) :
    s.find_shortest_paths all = [] := by
  unfold HexagramSearcher.find_shortest_paths
  have h0 : bfsLoop s.end_hexagram bfsFuel
      [[(s.start_hexagram, SearchOperation.NoOp)]] [] = [] := by
    apply bfsLoop_eq_nil
    intro p hp
    simp only [List.mem_singleton] at hp
    subst hp
    simp [h]
  rw [h0]
  cases all
  · simp [findLeastLinesChanged]
  · simp

/-- Invariant of every queued path: nonempty with first entry
`(start, NoOp)`, pairwise distinct hexagrams, all catalogue members. -/
def PathOk (start : Hexagram) (p : Path) : Prop :=
  p.head? = some (start, SearchOperation.NoOp) ∧
  (p.map Prod.fst).Nodup ∧ ∀ x ∈ p, x.1 ∈ HEXAGRAMS

/-- Invariant of every recorded shortest path: a well-formed path whose last
hexagram is the goal. -/
def ShortOk (start goal : Hexagram) (p : Path) : Prop :=
  PathOk start p ∧ p.getLast?.map Prod.fst = some goal

theorem PathOk.ne_nil {start : Hexagram} {p : Path} (h : PathOk start p) :
    p ≠ [] := by
  intro hnil
  rw [hnil] at h
  simp [PathOk] at h

theorem curHex_mem {start : Hexagram} {p : Path} (h : PathOk start p) :
    curHex p ∈ HEXAGRAMS := by
  have hne := h.ne_nil
  unfold curHex
  rw [List.getLast?_eq_getLast p hne]
  exact h.2.2 _ (List.getLast_mem hne)

theorem pathOk_extend {start : Hexagram} {p : Path} {nh : Hexagram}
    {op : SearchOperation} (h : PathOk start p)
    (hnot : nh ∉ p.map Prod.fst) (hmem : nh ∈ HEXAGRAMS) :
    PathOk start (p ++ [(nh, op)]) := by
  obtain ⟨hhead, hnd, hcat⟩ := h
  refine ⟨?_, ?_, ?_⟩
  · cases p with
    | nil => simp at hhead
    | cons a t => simpa using hhead
  · rw [List.map_append]
    rw [List.nodup_append]
    refine ⟨hnd, List.nodup_singleton _, ?_⟩
    intro a ha hb
    simp only [List.map_cons, List.map_nil, List.mem_singleton] at hb
    subst hb
    exact hnot ha
  · intro x hx
    rcases List.mem_append.mp hx with h1 | h2
    · exact hcat x h1
    · simp only [List.mem_singleton] at h2
      subst h2
      exact hmem

/-- A path with pairwise distinct catalogue hexagrams has at most 64
entries. -/
theorem pathOk_length_le {start : Hexagram} {p : Path} (h : PathOk start p) :
    p.length ≤ 64 := by
  obtain ⟨_, hnd, hcat⟩ := h
  have h1 : (p.map Prod.fst).toFinset.card = (p.map Prod.fst).length :=
    List.toFinset_card_of_nodup hnd
  have h2 : (p.map Prod.fst).toFinset ⊆ HEXAGRAMS.toFinset := by
    intro a ha
    rw [List.mem_toFinset] at ha ⊢
    obtain ⟨x, hx, rfl⟩ := List.mem_map.mp ha
    exact hcat x hx
  have h3 : HEXAGRAMS.toFinset.card ≤ HEXAGRAMS.length :=
    HEXAGRAMS.toFinset_card_le
  have h4 : HEXAGRAMS.length = 64 := by decide
  have h5 := Finset.card_le_card h2
  rw [List.length_map] at h1
  omega

/-- Soundness of the search loop: every result is a well-formed path from
`(start, NoOp)` to the goal. -/
theorem bfsLoop_shortOk (start goal : Hexagram) :
    ∀ (fuel : Nat) (queue shortest : List Path),
      (∀ p ∈ queue, PathOk start p) →
      (∀ p ∈ shortest, ShortOk start goal p) →
      ∀ p ∈ bfsLoop goal fuel queue shortest, ShortOk start goal p := by
  intro fuel
  induction fuel with
  | zero => intro queue shortest _ hs; exact hs
  | succ n ih =>
    intro queue shortest hq hs
    cases queue with
    | nil => exact hs
    | cons path rest =>
      simp only [bfsLoop]
      by_cases hb : breakCond shortest path = true
      · rw [if_pos hb]
        exact hs
      · rw [if_neg hb]
        have hpO := hq path (List.mem_cons_self path rest)
        apply ih
        · intro p hp
          rcases List.mem_append.mp hp with h1 | h2
          · exact hq p (List.mem_cons_of_mem _ h1)
          · obtain ⟨op, _, rfl, hnot, _⟩ :=
              expandStep_fst_mem goal path (curHex path) _ p h2
            exact pathOk_extend hpO hnot (apply_mem (curHex_mem hpO) op)
        · intro p hp
          rcases List.mem_append.mp hp with h1 | h2
          · exact hs p h1
          · obtain ⟨op, _, rfl, hnot, happ⟩ :=
              expandStep_snd_mem goal path (curHex path) _ p h2
            refine ⟨pathOk_extend hpO hnot ?_, ?_⟩
            · rw [← happ]
              exact apply_mem (curHex_mem hpO) op
            · rw [List.getLast?_concat]
              rfl

/-- The queue/shortest length relation: every recorded path has the length
of the first recorded one, and that length is at most one more than any
queued path's. -/
def ShortLenOk (queue shortest : List Path) : Prop :=
  ∀ s ∈ shortest.head?, (∀ p ∈ shortest, p.length = s.length) ∧
    ∀ q ∈ queue, s.length ≤ q.length + 1

/-- The breadth-first level invariant: queue lengths are nondecreasing and
spread over at most two consecutive values, and `ShortLenOk` ties them to
the recorded paths. -/
def LevelOk (queue shortest : List Path) : Prop :=
  List.Pairwise (fun a b => a ≤ b) (queue.map List.length) ∧
  (∀ p ∈ queue, ∀ q ∈ queue, p.length ≤ q.length + 1) ∧
  ShortLenOk queue shortest

theorem pairwise_le_of_const {l : List Nat} {c : Nat} (h : ∀ a ∈ l, a = c) :
    List.Pairwise (fun a b => a ≤ b) l := by
  induction l with
  | nil => exact List.Pairwise.nil
  | cons a t ih =>
    refine List.Pairwise.cons ?_ (ih fun x hx => h x (List.mem_cons_of_mem _ hx))
    intro b hb
    rw [h a (List.mem_cons_self a t), h b (List.mem_cons_of_mem _ hb)]

theorem shortLenOk_eq {queue shortest : List Path}
    (h : ShortLenOk queue shortest) :
    ∀ p ∈ shortest, ∀ q ∈ shortest, p.length = q.length := by
  intro p hp q hq
  cases shortest with
  | nil => simp at hp
  | cons s tl =>
    have hs := h s rfl
    rw [hs.1 p hp, hs.1 q hq]

/-- All paths returned by the search loop have the same length: the loop
pops paths in nondecreasing length order and records only extensions of
paths exactly one shorter than the first recorded path. -/
theorem bfsLoop_lengths_eq (goal : Hexagram) :
    ∀ (fuel : Nat) (queue shortest : List Path), LevelOk queue shortest →
      ∀ p ∈ bfsLoop goal fuel queue shortest,
        ∀ q ∈ bfsLoop goal fuel queue shortest, p.length = q.length := by
  intro fuel
  induction fuel with
  | zero => intro queue shortest h; exact shortLenOk_eq h.2.2
  | succ n ih =>
    intro queue shortest h
    cases queue with
    | nil => exact shortLenOk_eq h.2.2
    | cons path rest =>
      obtain ⟨hsort, hspread, hshort⟩ := h
      simp only [bfsLoop]
      by_cases hb : breakCond shortest path = true
      · rw [if_pos hb]
        exact shortLenOk_eq hshort
      · rw [if_neg hb]
        apply ih
        have hfst_len : ∀ q ∈ (expandStep goal path (curHex path)
            SearchOperation.all_operations).1, q.length = path.length + 1 := by
          intro q hq
          obtain ⟨op, _, rfl, _, _⟩ :=
            expandStep_fst_mem goal path (curHex path) _ q hq
          simp
        have hsnd_len : ∀ q ∈ (expandStep goal path (curHex path)
            SearchOperation.all_operations).2, q.length = path.length + 1 := by
          intro q hq
          obtain ⟨op, _, rfl, _, _⟩ :=
            expandStep_snd_mem goal path (curHex path) _ q hq
          simp
        rw [List.map_cons, List.pairwise_cons] at hsort
        have hrest_lb : ∀ q ∈ rest, path.length ≤ q.length := by
          intro q hq
          exact hsort.1 _ (List.mem_map_of_mem List.length hq)
        have hrest_ub : ∀ q ∈ rest, q.length ≤ path.length + 1 := by
          intro q hq
          exact hspread q (List.mem_cons_of_mem _ hq) path
            (List.mem_cons_self _ _)
        refine ⟨?_, ?_, ?_⟩
        · rw [List.map_append, List.pairwise_append]
          refine ⟨hsort.2, pairwise_le_of_const (c := path.length + 1) ?_, ?_⟩
          · intro a ha
            obtain ⟨q, hq, rfl⟩ := List.mem_map.mp ha
            exact hfst_len q hq
          · intro a ha b hb'
            obtain ⟨q1, hq1, rfl⟩ := List.mem_map.mp ha
            obtain ⟨q2, hq2, rfl⟩ := List.mem_map.mp hb'
            rw [hfst_len q2 hq2]
            exact hrest_ub q1 hq1
        · intro p hp q hq
          have hpub : p.length ≤ path.length + 1 := by
            rcases List.mem_append.mp hp with h1 | h2
            · exact hrest_ub p h1
            · exact le_of_eq (hfst_len p h2)
          have hqlb : path.length ≤ q.length := by
            rcases List.mem_append.mp hq with h1 | h2
            · exact hrest_lb q h1
            · rw [hfst_len q h2]
              omega
          omega
        · cases shortest with
          | nil =>
            simp only [List.nil_append]
            intro s hs
            have hslen : s.length = path.length + 1 :=
              hsnd_len s (List.mem_of_mem_head? hs)
            constructor
            · intro p hp
              rw [hsnd_len p hp, hslen]
            · intro q hq
              rw [hslen]
              rcases List.mem_append.mp hq with h1 | h2
              · have := hrest_lb q h1
                omega
              · rw [hfst_len q h2]
                omega
          | cons s0 tl =>
            have hs0 := hshort s0 rfl
            have hbreak : path.length < s0.length := by
              simp only [breakCond, decide_eq_true_eq] at hb
              omega
            have hs0len : s0.length = path.length + 1 := by
              have := hs0.2 path (List.mem_cons_self _ _)
              omega
            intro s hs
            have hss : s = s0 := by
              simp only [List.cons_append, List.head?_cons, Option.mem_def,
                Option.some.injEq] at hs
              exact hs.symm
            subst hss
            constructor
            · intro p hp
              rcases List.mem_append.mp hp with h1 | h2
              · exact hs0.1 p h1
              · rw [hsnd_len p h2, hs0len]
            · intro q hq
              rcases List.mem_append.mp hq with h1 | h2
              · have := hrest_lb q h1
                omega
              · rw [hfst_len q h2]
                omega

/-- The core of `num_line_changes` on raw line lists. -/
def diffLines (l1 l2 : List Line) : Nat :=
  ((l1.zip l2).filter fun x => decide (¬x.1 = x.2)).length

theorem num_line_changes_eq (h o : Hexagram) :
    h.num_line_changes o = diffLines h.lines o.lines := rfl

theorem Line.inverse_eq_of_ne {a b : Line} (h : ¬a = b) : a.inverse = b := by
  cases a <;> cases b <;> simp_all [Line.inverse]

theorem Line.inverse_inverse (a : Line) : a.inverse.inverse = a := by
  cases a <;> rfl

theorem diffLines_cons (a b : Line) (t1 t2 : List Line) :
    diffLines (a :: t1) (b :: t2) =
      diffLines t1 t2 + (if a = b then 0 else 1) := by
  by_cases hab : a = b <;> simp [diffLines, hab]

theorem diffLines_self : ∀ l : List Line, diffLines l l = 0 := by
  intro l
  induction l with
  | nil => rfl
  | cons a t ih => simp [diffLines_cons, ih]

theorem diffLines_eq_zero : ∀ l1 l2 : List Line, l1.length = l2.length →
    diffLines l1 l2 = 0 → l1 = l2 := by
  intro l1
  induction l1 with
  | nil =>
    intro l2 hlen _
    cases l2 with
    | nil => rfl
    | cons b t2 => simp at hlen
  | cons a t1 ih =>
    intro l2 hlen hd
    cases l2 with
    | nil => simp at hlen
    | cons b t2 =>
      rw [diffLines_cons] at hd
      by_cases hab : a = b
      · rw [if_pos hab] at hd
        rw [hab, ih t2 (by simpa using hlen) (by omega)]
      · rw [if_neg hab] at hd
        omega

/-- Flipping one differing line decreases the line distance by exactly
one. -/
theorem diffLines_flip : ∀ l1 l2 : List Line, l1.length = l2.length →
    diffLines l1 l2 ≠ 0 →
    ∃ i, i < l1.length ∧ diffLines (flipIdx l1 i) l2 + 1 = diffLines l1 l2 := by
  intro l1
  induction l1 with
  | nil =>
    intro l2 _ hne
    simp [diffLines] at hne
  | cons a t1 ih =>
    intro l2 hlen hne
    cases l2 with
    | nil => simp at hlen
    | cons b t2 =>
      rw [diffLines_cons] at hne
      by_cases hab : a = b
      · rw [if_pos hab] at hne
        obtain ⟨i, hi, hflip⟩ := ih t2 (by simpa using hlen) (by omega)
        refine ⟨i + 1, by simpa using Nat.succ_lt_succ hi, ?_⟩
        simp only [flipIdx, diffLines_cons, if_pos hab]
        omega
      · refine ⟨0, Nat.succ_pos _, ?_⟩
        have hinv : a.inverse = b := Line.inverse_eq_of_ne hab
        simp only [flipIdx, diffLines_cons, hinv, if_neg hab]
        simp

/-- The positions, as `HexagramLine` values, of indices `0..5`. -/
def hexLineOfIdx : Nat → HexagramLine
  | 0 => HexagramLine.First
  | 1 => HexagramLine.Second
  | 2 => HexagramLine.Third
  | 3 => HexagramLine.Fourth
  | 4 => HexagramLine.Fifth
  | _ => HexagramLine.Sixth

theorem hexLineOfIdx_index : ∀ i, i < 6 → (hexLineOfIdx i).line_to_index = i := by
  intro i hi
  interval_cases i <;> rfl

theorem inverseLine_mem_all (pos : HexagramLine) :
    SearchOperation.InverseLine pos ∈ SearchOperation.all_operations := by
  cases pos <;> decide

theorem curHex_concat (p : Path) (x : Hexagram × SearchOperation) :
    curHex (p ++ [x]) = x.1 := by
  unfold curHex
  rw [List.getLast?_concat]
  rfl

/-- The search loop can finish the path `p`: some sequence of catalogue
operations extends `p` to the goal, never revisiting a hexagram of the
extended path (so the cycle-avoidance check never skips it). -/
inductive CanFinish (goal : Hexagram) : Path → Prop where
  | found (p : Path) (op : SearchOperation)
      (hop : op ∈ SearchOperation.all_operations)
      (happly : op.apply (curHex p) = goal)
      (hnot : goal ∉ p.map Prod.fst) : CanFinish goal p
  | step (p : Path) (op : SearchOperation)
      (hop : op ∈ SearchOperation.all_operations)
      (hnot : op.apply (curHex p) ∉ p.map Prod.fst)
      (hnext : CanFinish goal (p ++ [(op.apply (curHex p), op)])) :
      CanFinish goal p

/-- Construction of a finishing extension: repeatedly flip the first line
still differing from the goal.  The line distance to the goal strictly
decreases, so the new hexagram differs from everything on the path. -/
theorem canFinish_of_diff (goal : Hexagram) (hgoal : goal ∈ HEXAGRAMS) :
    ∀ (k : Nat) (p : Path), curHex p ∈ HEXAGRAMS →
      diffLines (curHex p).lines goal.lines = k → 0 < k →
      (∀ x ∈ p.map Prod.fst, k ≤ diffLines x.lines goal.lines) →
      CanFinish goal p := by
  intro k
  induction k with
  | zero =>
    intro p _ _ h0
    omega
  | succ m ih =>
    intro p hcur hdiff _ hinv
    have hlen : (curHex p).lines.length = 6 := lines_length_of_mem _ hcur
    have hglen : goal.lines.length = 6 := lines_length_of_mem _ hgoal
    obtain ⟨i, hi, hflip⟩ :=
      diffLines_flip (curHex p).lines goal.lines (by omega) (by omega)
    have hposidx : (hexLineOfIdx i).line_to_index = i :=
      hexLineOfIdx_index i (by omega)
    have hop : SearchOperation.InverseLine (hexLineOfIdx i) ∈
        SearchOperation.all_operations := inverseLine_mem_all _
    have happly : (SearchOperation.InverseLine (hexLineOfIdx i)).apply
        (curHex p) = hexLookup (flipIdx (curHex p).lines i) := by
      simp [SearchOperation.apply, Hexagram.inverse_line, hposidx]
    have hflen : (flipIdx (curHex p).lines i).length = 6 := by
      rw [flipIdx_length, hlen]
    have hclines : ((SearchOperation.InverseLine (hexLineOfIdx i)).apply
        (curHex p)).lines = flipIdx (curHex p).lines i := by
      rw [happly]
      exact hexLookup_lines hflen
    have hcmem : (SearchOperation.InverseLine (hexLineOfIdx i)).apply
        (curHex p) ∈ HEXAGRAMS := by
      rw [happly]
      exact hexLookup_mem hflen
    have hcdiff : diffLines ((SearchOperation.InverseLine
        (hexLineOfIdx i)).apply (curHex p)).lines goal.lines = m := by
      rw [hclines]
      omega
    by_cases hm : m = 0
    · have hle : ((SearchOperation.InverseLine (hexLineOfIdx i)).apply
          (curHex p)).lines = goal.lines := by
        apply diffLines_eq_zero _ _ (by rw [hclines, hflen, hglen]) (by omega)
      have heq : (SearchOperation.InverseLine (hexLineOfIdx i)).apply
          (curHex p) = goal := hexagram_eq_of_lines_eq hcmem hgoal hle
      refine CanFinish.found p _ hop heq ?_
      intro hmem
      have := hinv goal hmem
      rw [diffLines_self] at this
      omega
    · refine CanFinish.step p _ hop ?_ ?_
      · intro hmem
        have := hinv _ hmem
        rw [hcdiff] at this
        omega
      · refine ih _ ?_ ?_ (by omega) ?_
        · rw [curHex_concat]
          exact hcmem
        · rw [curHex_concat]
          exact hcdiff
        · intro x hx
          rw [List.map_append] at hx
          rcases List.mem_append.mp hx with h1 | h2
          · have := hinv x h1
            omega
          · simp only [List.map_cons, List.map_nil, List.mem_singleton] at h2
            subst h2
            rw [hcdiff]

/-- The termination measure of the search loop: queued paths weighted
exponentially by remaining depth. -/
def queueMeasure (queue : List Path) : Nat :=
  (queue.map fun p => 18 ^ (65 - p.length)).sum

theorem queueMeasure_append (q1 q2 : List Path) :
    queueMeasure (q1 ++ q2) = queueMeasure q1 + queueMeasure q2 := by
  simp [queueMeasure]

theorem sum_map_const {α : Type} (l : List α) (f : α → Nat) (c : Nat)
    (h : ∀ a ∈ l, f a = c) : (l.map f).sum = l.length * c := by
  induction l with
  | nil => simp
  | cons a t ih =>
    simp only [List.map_cons, List.sum_cons, List.length_cons]
    rw [h a (List.mem_cons_self a t),
      ih fun x hx => h x (List.mem_cons_of_mem _ hx)]
    ring

/-- Completeness of the search loop: while a queued path can be finished
(or something is recorded already), the loop — run with fuel exceeding its
measure — returns a nonempty result. -/
theorem bfsLoop_ne_nil (start goal : Hexagram) :
    ∀ (fuel : Nat) (queue shortest : List Path),
      queueMeasure queue < fuel →
      (∀ p ∈ queue, PathOk start p) →
      (shortest ≠ [] ∨ ∃ p ∈ queue, CanFinish goal p) →
      bfsLoop goal fuel queue shortest ≠ [] := by
  intro fuel
  induction fuel with
  | zero =>
    intro queue shortest hm
    omega
  | succ n ih =>
    intro queue shortest hm hq hwit
    cases queue with
    | nil =>
      rcases hwit with hne | ⟨p, hp, _⟩
      · simpa [bfsLoop] using hne
      · simp at hp
    | cons path rest =>
      simp only [bfsLoop]
      by_cases hb : breakCond shortest path = true
      · rw [if_pos hb]
        cases shortest with
        | nil => simp [breakCond] at hb
        | cons s tl => simp
      · rw [if_neg hb]
        have hpO := hq path (List.mem_cons_self path rest)
        have hlen64 : path.length ≤ 64 := pathOk_length_le hpO
        have hfst_len : ∀ q ∈ (expandStep goal path (curHex path)
            SearchOperation.all_operations).1, q.length = path.length + 1 := by
          intro q hq'
          obtain ⟨op, _, rfl, _, _⟩ :=
            expandStep_fst_mem goal path (curHex path) _ q hq'
          simp
        have hwq : queueMeasure (expandStep goal path (curHex path)
            SearchOperation.all_operations).1 ≤
            17 * 18 ^ (64 - path.length) := by
          unfold queueMeasure
          rw [sum_map_const _ _ (18 ^ (64 - path.length))
            (fun q hq' => by rw [hfst_len q hq']; congr 1; omega)]
          have hle := expandStep_fst_length_le goal path (curHex path)
            SearchOperation.all_operations
          have h17 : SearchOperation.all_operations.length = 17 := rfl
          rw [h17] at hle
          exact Nat.mul_le_mul_right _ hle
        have hpow : (18 : Nat) ^ (65 - path.length) =
            18 ^ (64 - path.length) * 18 := by
          have h65 : 65 - path.length = (64 - path.length) + 1 := by omega
          rw [h65, pow_succ]
        have hpos : 0 < (18 : Nat) ^ (64 - path.length) :=
          pow_pos (by omega) _
        have hhead : queueMeasure (path :: rest) =
            18 ^ (65 - path.length) + queueMeasure rest := by
          simp [queueMeasure]
        have hmeasure : queueMeasure (rest ++ (expandStep goal path
            (curHex path) SearchOperation.all_operations).1) < n := by
          rw [queueMeasure_append]
          omega
        apply ih _ _ hmeasure
        · intro p hp
          rcases List.mem_append.mp hp with h1 | h2
          · exact hq p (List.mem_cons_of_mem _ h1)
          · obtain ⟨op, _, rfl, hnot, _⟩ :=
              expandStep_fst_mem goal path (curHex path) _ p h2
            exact pathOk_extend hpO hnot (apply_mem (curHex_mem hpO) op)
        · rcases hwit with hne | ⟨p, hp, hcf⟩
          · left
            cases shortest with
            | nil => exact absurd rfl hne
            | cons s tl => simp
          · rcases List.mem_cons.mp hp with rfl | hp'
            · cases hcf with
              | found _ op hop happly hnot =>
                left
                have h2 := expandStep_snd_ne goal p (curHex p)
                  SearchOperation.all_operations op hop happly hnot
                intro hcontra
                rcases List.append_eq_nil.mp hcontra with ⟨_, h4⟩
                exact h2 h4
              | step _ op hop hnot hnext =>
                rcases expandStep_mem_or_snd_ne goal p (curHex p)
                  SearchOperation.all_operations op hop hnot with hin | hne2
                · right
                  exact ⟨_, List.mem_append_right _ hin, hnext⟩
                · left
                  intro hcontra
                  rcases List.append_eq_nil.mp hcontra with ⟨_, h4⟩
                  exact hne2 h4
            · right
              exact ⟨p, List.mem_append_left _ hp', hcf⟩

theorem curHex_singleton (x : Hexagram × SearchOperation) :
    curHex [x] = x.1 := rfl

theorem HEXAGRAMS_length : HEXAGRAMS.length = 64 := by decide

theorem hexAt_mem {n : Nat} (h1 : 1 ≤ n) (h2 : n ≤ 64) :
    hexAt n ∈ HEXAGRAMS := by
  have hlt : n - 1 < HEXAGRAMS.length := by rw [HEXAGRAMS_length]; omega
  unfold hexAt
  rw [List.get?_eq_get hlt]
  exact List.get_mem _ _ _

theorem hexAt_number_bounded : ∀ n < 65, 1 ≤ n → (hexAt n).number = n := by
  decide

theorem hexAt_number {n : Nat} (h1 : 1 ≤ n) (h2 : n ≤ 64) :
    (hexAt n).number = n :=
  hexAt_number_bounded n (by omega) h1

/-- The search from a valid start to a distinct valid end records at least
one path before the loop ends. -/
theorem bfs_result_ne_nil {s e : Nat} (hs1 : 1 ≤ s) (hs2 : s ≤ 64)
    (he1 : 1 ≤ e) (he2 : e ≤ 64) (hne : s ≠ e) :
    bfsLoop (hexAt e) bfsFuel [[(hexAt s, SearchOperation.NoOp)]] [] ≠ [] := by
  have hsm := hexAt_mem hs1 hs2
  have hem := hexAt_mem he1 he2
  apply bfsLoop_ne_nil (hexAt s) (hexAt e)
  · have h1 : queueMeasure [[(hexAt s, SearchOperation.NoOp)]] = 18 ^ 64 := by
      simp [queueMeasure]
    rw [h1]
    have h2 : (18 : Nat) ^ 65 = 18 ^ 64 * 18 := pow_succ 18 64
    have h3 : 0 < (18 : Nat) ^ 64 := pow_pos (by omega) _
    unfold bfsFuel
    omega
  · intro p hp
    simp only [List.mem_singleton] at hp
    subst hp
    exact ⟨rfl, List.nodup_singleton _, by simpa using hsm⟩
  · right
    refine ⟨[(hexAt s, SearchOperation.NoOp)], List.mem_singleton_self _, ?_⟩
    have hdne : diffLines (hexAt s).lines (hexAt e).lines ≠ 0 := by
      intro h0
      have hleq : (hexAt s).lines = (hexAt e).lines := by
        apply diffLines_eq_zero _ _ ?_ h0
        rw [lines_length_of_mem _ hsm, lines_length_of_mem _ hem]
      have heq : hexAt s = hexAt e := hexagram_eq_of_lines_eq hsm hem hleq
      have hnum : s = e := by
        have h1 := hexAt_number hs1 hs2
        have h2 := hexAt_number he1 he2
        rw [← h1, ← h2, heq]
      exact hne hnum
    refine canFinish_of_diff (hexAt e) hem
      (diffLines (hexAt s).lines (hexAt e).lines)
      [(hexAt s, SearchOperation.NoOp)] ?_ ?_ (by omega) ?_
    · rw [curHex_singleton]
      exact hsm
    · rw [curHex_singleton]
    · intro x hx
      simp only [List.map_cons, List.map_nil, List.mem_singleton] at hx
      subst hx
      exact le_refl _

theorem num_line_changes_le {a b : Hexagram} (ha : a ∈ HEXAGRAMS) :
    a.num_line_changes b ≤ 6 := by
  rw [num_line_changes_eq]
  unfold diffLines
  calc ((a.lines.zip b.lines).filter fun x => decide (¬x.1 = x.2)).length
      ≤ (a.lines.zip b.lines).length := List.length_filter_le _ _
    _ ≤ a.lines.length := by rw [List.length_zip]; omega
    _ = 6 := lines_length_of_mem _ ha

theorem count_line_changes_le : ∀ p : Path, (∀ x ∈ p, x.1 ∈ HEXAGRAMS) →
    count_line_changes p ≤ 6 * p.length := by
  intro p
  induction p with
  | nil => intro _; simp [count_line_changes]
  | cons a t ih =>
    intro hcat
    cases t with
    | nil => simp [count_line_changes]
    | cons b t2 =>
      have h1 : b.1.num_line_changes a.1 ≤ 6 :=
        num_line_changes_le (hcat b (List.mem_cons_of_mem _
          (List.mem_cons_self _ _)))
      have h2 := ih fun x hx => hcat x (List.mem_cons_of_mem _ hx)
      rw [count_line_changes]
      simp only [List.length_cons] at h2 ⊢
      omega

/-- Paths produced by the search have counts far below the `u64::MAX`
sentinel. -/
theorem count_lt_UMAX {p : Path} (hcat : ∀ x ∈ p, x.1 ∈ HEXAGRAMS)
    (hlen : p.length ≤ 64) : count_line_changes p < UMAX := by
  have h := count_line_changes_le p hcat
  have : count_line_changes p ≤ 6 * 64 := le_trans h (by omega)
  unfold UMAX
  omega

theorem minStep_foldl_props : ∀ (ps : List Path) (m : Nat), m < UMAX →
    (∀ p ∈ ps, count_line_changes p < UMAX) →
    List.foldl minStep m ps ≤ m ∧
    (∀ p ∈ ps, List.foldl minStep m ps ≤ count_line_changes p) ∧
    (List.foldl minStep m ps = m ∨
      ∃ p ∈ ps, List.foldl minStep m ps = count_line_changes p) := by
  intro ps
  induction ps with
  | nil =>
    intro m _ _
    exact ⟨le_refl _, by simp, Or.inl rfl⟩
  | cons p t ih =>
    intro m hm hb
    have hplt : count_line_changes p < UMAX :=
      hb p (List.mem_cons_self _ _)
    have hm' : minStep m p < UMAX := by
      unfold minStep
      split
      · exact hplt
      · exact hm
    have hstep_le_m : minStep m p ≤ m := by
      unfold minStep
      split
      · next hc =>
        rcases hc with hc | hc
        · exact absurd hc (by omega)
        · omega
      · exact le_refl _
    have hstep_le_lc : minStep m p ≤ count_line_changes p := by
      unfold minStep
      split
      · exact le_refl _
      · next hc =>
        push_neg at hc
        exact hc.2
    obtain ⟨h1, h2, h3⟩ := ih (minStep m p) hm'
      fun q hq => hb q (List.mem_cons_of_mem _ hq)
    rw [List.foldl_cons]
    refine ⟨le_trans h1 hstep_le_m, ?_, ?_⟩
    · intro q hq
      rcases List.mem_cons.mp hq with rfl | hq'
      · exact le_trans h1 hstep_le_lc
      · exact h2 q hq'
    · rcases h3 with heq | ⟨q, hq, heq⟩
      · by_cases hc : m = UMAX ∨ count_line_changes p < m
        · have hstep : minStep m p = count_line_changes p := by
            unfold minStep
            rw [if_pos hc]
          exact Or.inr ⟨p, List.mem_cons_self _ _, heq.trans hstep⟩
        · have hstep : minStep m p = m := by
            unfold minStep
            rw [if_neg hc]
          exact Or.inl (heq.trans hstep)
      · exact Or.inr ⟨q, List.mem_cons_of_mem _ hq, heq⟩

theorem minLinesChanged_le {ps : List Path}
    (hb : ∀ p ∈ ps, count_line_changes p < UMAX) :
    ∀ p ∈ ps, minLinesChanged ps ≤ count_line_changes p := by
  cases ps with
  | nil => intro p hp; simp at hp
  | cons p t =>
    have hplt : count_line_changes p < UMAX := hb p (List.mem_cons_self _ _)
    have hstep : minStep UMAX p = count_line_changes p := by
      unfold minStep
      rw [if_pos (Or.inl rfl)]
    have hprops := minStep_foldl_props t (count_line_changes p) hplt
      fun q hq => hb q (List.mem_cons_of_mem _ hq)
    intro q hq
    rcases List.mem_cons.mp hq with rfl | hq'
    · unfold minLinesChanged
      rw [List.foldl_cons, hstep]
      exact hprops.1
    · unfold minLinesChanged
      rw [List.foldl_cons, hstep]
      exact hprops.2.1 q hq'

theorem minLinesChanged_mem {ps : List Path} (hne : ps ≠ [])
    (hb : ∀ p ∈ ps, count_line_changes p < UMAX) :
    ∃ p ∈ ps, count_line_changes p = minLinesChanged ps := by
  cases ps with
  | nil => exact absurd rfl hne
  | cons p t =>
    have hplt : count_line_changes p < UMAX := hb p (List.mem_cons_self _ _)
    have hstep : minStep UMAX p = count_line_changes p := by
      unfold minStep
      rw [if_pos (Or.inl rfl)]
    have hprops := minStep_foldl_props t (count_line_changes p) hplt
      fun q hq => hb q (List.mem_cons_of_mem _ hq)
    rcases hprops.2.2 with heq | ⟨q, hq, heq⟩
    · refine ⟨p, List.mem_cons_self _ _, ?_⟩
      unfold minLinesChanged
      rw [List.foldl_cons, hstep, heq]
    · refine ⟨q, List.mem_cons_of_mem _ hq, ?_⟩
      unfold minLinesChanged
      rw [List.foldl_cons, hstep, heq]

theorem flc_subset {ps : List Path} :
    ∀ q ∈ findLeastLinesChanged ps, q ∈ ps := by
  intro q hq
  exact List.mem_of_mem_filter hq

theorem flc_count {ps : List Path} :
    ∀ q ∈ findLeastLinesChanged ps,
      count_line_changes q = minLinesChanged ps := by
  intro q hq
  have := List.of_mem_filter hq
  simpa using this

theorem flc_ne_nil {ps : List Path} (hne : ps ≠ [])
    (hb : ∀ p ∈ ps, count_line_changes p < UMAX) :
    findLeastLinesChanged ps ≠ [] := by
  obtain ⟨p, hp, hmin⟩ := minLinesChanged_mem hne hb
  have hmem : p ∈ findLeastLinesChanged ps := by
    unfold findLeastLinesChanged
    rw [List.mem_filter]
    exact ⟨hp, by simpa using hmin⟩
  intro hcontra
  rw [hcontra] at hmem
  simp at hmem

theorem not_mem_flc {ps : List Path}
    (hb : ∀ p ∈ ps, count_line_changes p < UMAX) :
    ∀ q ∈ ps, q ∉ findLeastLinesChanged ps →
      minLinesChanged ps < count_line_changes q := by
  intro q hq hnot
  have hle := minLinesChanged_le hb q hq
  rcases lt_or_eq_of_le hle with hlt | heq
  · exact hlt
  · exfalso
    apply hnot
    unfold findLeastLinesChanged
    rw [List.mem_filter]
    exact ⟨hq, by simp [heq]⟩

theorem fsp_true_eq (sr : HexagramSearcher) :
    sr.find_shortest_paths true =
      bfsLoop sr.end_hexagram bfsFuel
        [[(sr.start_hexagram, SearchOperation.NoOp)]] [] := rfl

theorem fsp_false_eq (sr : HexagramSearcher) :
    sr.find_shortest_paths false =
      findLeastLinesChanged (sr.find_shortest_paths true) := rfl

/-- Every result of `find_shortest_paths` is a well-formed path from
`(start, NoOp)` to the end hexagram. -/
theorem fsp_shortOk (sr : HexagramSearcher)
    (hm : sr.start_hexagram ∈ HEXAGRAMS) (all : Bool) :
    ∀ p ∈ sr.find_shortest_paths all,
      ShortOk sr.start_hexagram sr.end_hexagram p := by
  have hbase := bfsLoop_shortOk sr.start_hexagram sr.end_hexagram bfsFuel
    [[(sr.start_hexagram, SearchOperation.NoOp)]] []
    (by
      intro p hp
      simp only [List.mem_singleton] at hp
      subst hp
      exact ⟨rfl, List.nodup_singleton _, by simpa using hm⟩)
    (by intro p hp; simp at hp)
  cases all with
  | true =>
    intro p hp
    rw [fsp_true_eq] at hp
    exact hbase p hp
  | false =>
    intro p hp
    rw [fsp_false_eq] at hp
    have hp' := flc_subset p hp
    rw [fsp_true_eq] at hp'
    exact hbase p hp'

theorem fsp_count_lt (sr : HexagramSearcher)
    (hm : sr.start_hexagram ∈ HEXAGRAMS) :
    ∀ p ∈ sr.find_shortest_paths true, count_line_changes p < UMAX := by
  intro p hp
  have hok := fsp_shortOk sr hm true p hp
  exact count_lt_UMAX hok.1.2.2 (pathOk_length_le hok.1)

/-- All results of one `find_shortest_paths` call have equal length. -/
theorem fsp_lengths_eq (sr : HexagramSearcher) (all : Bool) :
    ∀ p ∈ sr.find_shortest_paths all,
      ∀ q ∈ sr.find_shortest_paths all, p.length = q.length := by
  have hbase := bfsLoop_lengths_eq sr.end_hexagram bfsFuel
    [[(sr.start_hexagram, SearchOperation.NoOp)]] []
    (by
      refine ⟨?_, ?_, ?_⟩
      · simp
      · intro p hp q hq
        simp only [List.mem_singleton] at hp hq
        subst hp
        subst hq
        omega
      · intro s hs
        simp at hs)
  cases all with
  | true =>
    intro p hp q hq
    rw [fsp_true_eq] at hp hq
    exact hbase p hp q hq
  | false =>
    intro p hp q hq
    rw [fsp_false_eq] at hp hq
    have hp' := flc_subset p hp
    have hq' := flc_subset q hq
    rw [fsp_true_eq] at hp' hq'
    exact hbase p hp' q hq'

/-- The search between two distinct valid hexagram numbers returns at least
one path, in both the `all` and the filtered mode. -/
theorem fsp_ne_nil_of_ne {s e : Nat} (hs1 : 1 ≤ s) (hs2 : s ≤ 64)
    (he1 : 1 ≤ e) (he2 : e ≤ 64) (hne : s ≠ e) (all : Bool) :
    (⟨hexAt s, hexAt e⟩ : HexagramSearcher).find_shortest_paths all ≠ [] := by
  have htrue : (⟨hexAt s, hexAt e⟩ :
      HexagramSearcher).find_shortest_paths true ≠ [] := by
    rw [fsp_true_eq]
    exact bfs_result_ne_nil hs1 hs2 he1 he2 hne
  cases all with
  | true => exact htrue
  | false =>
    rw [fsp_false_eq]
    exact flc_ne_nil htrue
      (fsp_count_lt _ (hexAt_mem hs1 hs2))

theorem new_eq_some {s e : Nat} (hs : 1 ≤ s ∧ s ≤ 64) (he : 1 ≤ e ∧ e ≤ 64) :
    HexagramSearcher.new s e = some ⟨hexAt s, hexAt e⟩ := by
  unfold HexagramSearcher.new
  rw [if_neg (not_not_intro hs), if_neg (not_not_intro he)]

theorem new_eq_none {s e : Nat} (h : ¬(1 ≤ s ∧ s ≤ 64) ∨ ¬(1 ≤ e ∧ e ≤ 64)) :
    HexagramSearcher.new s e = none := by
  unfold HexagramSearcher.new
  by_cases hs : 1 ≤ s ∧ s ≤ 64
  · rcases h with h | h
    · exact absurd hs h
    · rw [if_neg (not_not_intro hs), if_pos h]
  · rw [if_pos hs]

theorem new_some_elim {s e : Nat} {sr : HexagramSearcher}
    (hnew : HexagramSearcher.new s e = some sr) :
    (1 ≤ s ∧ s ≤ 64) ∧ (1 ≤ e ∧ e ≤ 64) ∧ sr = ⟨hexAt s, hexAt e⟩ := by
  unfold HexagramSearcher.new at hnew
  by_cases hs : 1 ≤ s ∧ s ≤ 64
  · by_cases he : 1 ≤ e ∧ e ≤ 64
    · rw [if_neg (not_not_intro hs), if_neg (not_not_intro he)] at hnew
      exact ⟨hs, he, (Option.some.inj hnew).symm⟩
    · rw [if_neg (not_not_intro hs), if_pos he] at hnew
      exact absurd hnew (by simp)
  · rw [if_pos hs] at hnew
    exact absurd hnew (by simp)

/-- The searcher of the pair (1, 1), the counterexample pair. -/
def searcher11 : HexagramSearcher := ⟨hexAt 1, hexAt 1⟩

/-- The searcher of the pair (1, 2), the witness pair. -/
def searcher12 : HexagramSearcher := ⟨hexAt 1, hexAt 2⟩

/-- C1, counterexample: at the pair (1, 1) — both numbers in `1..=64` — the
claimed non-emptiness fails: `find_shortest_paths` returns the empty list,
because the goal hexagram is on the initial path and the cycle-avoidance
check therefore skips every extension reaching it. -/
theorem spec_C1_counterexample :
    ((HexagramSearcher.new 1 1).map fun sr =>
      sr.find_shortest_paths false) = some [] := by
  rw [new_eq_some (by omega) (by omega), Option.map_some']
  exact congrArg some (fsp_nil_of_eq _ rfl _)

/-- C1, amended: for every pair of hexagram numbers `(start, end)` with
both in `1..=64` and `start ≠ end`, `find_shortest_paths` returns a
non-empty list of paths, every returned path's first element is
`(start_hexagram, NoOp)`, and its last element's hexagram equals
`end_hexagram`; when `start = end` the returned list is empty. -/
theorem spec_C1_amended (s e : Nat) (hs1 : 1 ≤ s) (hs2 : s ≤ 64)
    (he1 : 1 ≤ e) (he2 : e ≤ 64) (hne : s ≠ e) (sr : HexagramSearcher)
    (hnew : HexagramSearcher.new s e = some sr) (all : Bool) :
    sr.find_shortest_paths all ≠ [] ∧
    ∀ p ∈ sr.find_shortest_paths all,
      p.head? = some (sr.start_hexagram, SearchOperation.NoOp) ∧
      p.getLast?.map Prod.fst = some sr.end_hexagram := by
  have hsr : sr = ⟨hexAt s, hexAt e⟩ := by
    rw [new_eq_some ⟨hs1, hs2⟩ ⟨he1, he2⟩] at hnew
    exact (Option.some.inj hnew).symm
  subst hsr
  refine ⟨fsp_ne_nil_of_ne hs1 hs2 he1 he2 hne all, ?_⟩
  intro p hp
  have hok := fsp_shortOk _ (hexAt_mem hs1 hs2) all p hp
  exact ⟨hok.1.1, hok.2⟩

/-- C1, witness at the pair (1, 2). -/
theorem spec_C1_witness :
    searcher12.find_shortest_paths false ≠ [] ∧
    ∀ p ∈ searcher12.find_shortest_paths false,
      p.head? = some (searcher12.start_hexagram, SearchOperation.NoOp) ∧
      p.getLast?.map Prod.fst = some searcher12.end_hexagram :=
  spec_C1_amended 1 2 (by omega) (by omega) (by omega) (by omega)
    (by omega) searcher12 (by decide) false

/-- C2, counterexample: for start = end = 1 the result is not the single
trivial one-element path — it is the empty list. -/
theorem spec_C2_counterexample :
    ((HexagramSearcher.new 1 1).map fun sr =>
      sr.find_shortest_paths false) ≠
      some [[(hexAt 1, SearchOperation.NoOp)]] := by
  rw [new_eq_some (by omega) (by omega), Option.map_some',
    fsp_nil_of_eq _ rfl]
  simp

/-- C2, amended: when the start hexagram equals the end hexagram,
`find_shortest_paths` returns the empty list (the trivial path is never
recorded, since the end hexagram already lies on every path and the
cycle-avoidance check skips every extension reaching it). -/
theorem spec_C2_amended (sr : HexagramSearcher)
    (h : sr.start_hexagram = sr.end_hexagram) (all : Bool) :
    sr.find_shortest_paths all = [] :=
  fsp_nil_of_eq sr h all

/-- C2, witness at the pair (1, 1). -/
theorem spec_C2_witness : searcher11.find_shortest_paths false = [] :=
  spec_C2_amended searcher11 rfl false

/-- C3: with `all = false` every returned path has the same edge count and
the same total line-change count; that count is minimal among all
equal-length shortest paths (the `all = true` result), and every shortest
path excluded by the filter has a strictly greater line-change count than
every included one. -/
theorem spec_C3_thm (s e : Nat) (sr : HexagramSearcher)
    (hnew : HexagramSearcher.new s e = some sr) :
    (∀ p ∈ sr.find_shortest_paths false, ∀ q ∈ sr.find_shortest_paths false,
      p.length = q.length ∧ count_line_changes p = count_line_changes q) ∧
    (∀ p ∈ sr.find_shortest_paths false, ∀ q ∈ sr.find_shortest_paths true,
      count_line_changes p ≤ count_line_changes q) ∧
    (∀ q ∈ sr.find_shortest_paths true, q ∉ sr.find_shortest_paths false →
      ∀ p ∈ sr.find_shortest_paths false,
        count_line_changes p < count_line_changes q) := by
  obtain ⟨hs, he, hsr⟩ := new_some_elim hnew
  have hm : sr.start_hexagram ∈ HEXAGRAMS := by
    rw [hsr]
    exact hexAt_mem hs.1 hs.2
  have hcnt := fsp_count_lt sr hm
  refine ⟨?_, ?_, ?_⟩
  · intro p hp q hq
    refine ⟨fsp_lengths_eq sr false p hp q hq, ?_⟩
    rw [fsp_false_eq] at hp hq
    rw [flc_count p hp, flc_count q hq]
  · intro p hp q hq
    rw [fsp_false_eq] at hp
    rw [flc_count p hp]
    exact minLinesChanged_le hcnt q hq
  · intro q hq hqnot p hp
    rw [fsp_false_eq] at hp hqnot
    rw [flc_count p hp]
    exact not_mem_flc hcnt q hq hqnot

/-- C3, witness at the pair (1, 2). -/
theorem spec_C3_witness :
    (∀ p ∈ searcher12.find_shortest_paths false,
      ∀ q ∈ searcher12.find_shortest_paths false,
      p.length = q.length ∧ count_line_changes p = count_line_changes q) ∧
    (∀ p ∈ searcher12.find_shortest_paths false,
      ∀ q ∈ searcher12.find_shortest_paths true,
      count_line_changes p ≤ count_line_changes q) ∧
    (∀ q ∈ searcher12.find_shortest_paths true,
      q ∉ searcher12.find_shortest_paths false →
      ∀ p ∈ searcher12.find_shortest_paths false,
        count_line_changes p < count_line_changes q) :=
  spec_C3_thm 1 2 searcher12 (by decide)

/-- C6: `HexagramSearcher::new` fails exactly when a number lies outside
`1..=64` (no search is attempted — the function never runs one), and on
success returns the catalogue hexagrams of the two numbers. -/
theorem spec_C6_thm (s e : Nat) :
    ((¬(1 ≤ s ∧ s ≤ 64) ∨ ¬(1 ≤ e ∧ e ≤ 64)) →
      HexagramSearcher.new s e = none) ∧
    ((1 ≤ s ∧ s ≤ 64) → (1 ≤ e ∧ e ≤ 64) →
      HexagramSearcher.new s e = some ⟨hexAt s, hexAt e⟩) :=
  ⟨new_eq_none, fun hs he => new_eq_some hs he⟩

/-- C6, witness: an invalid pair is rejected, a valid pair accepted. -/
theorem spec_C6_witness :
    HexagramSearcher.new 0 5 = none ∧
    HexagramSearcher.new 1 2 = some ⟨hexAt 1, hexAt 2⟩ :=
  ⟨(spec_C6_thm 0 5).1 (Or.inl (by omega)),
   (spec_C6_thm 1 2).2 (by omega) (by omega)⟩

/-- C10: the search from hexagram 1 (all `Closed`) to hexagram 2 (all
`Open`) with `all = false` returns exactly one path, the one-edge path
`[(hexagram 1, NoOp), (hexagram 2, InverseHexagram)]`, whose total line
change count is 6. -/
theorem spec_C10_thm :
    ((HexagramSearcher.new 1 2).map fun sr =>
      sr.find_shortest_paths false) =
      some [[(hexAt 1, SearchOperation.NoOp),
             (hexAt 2, SearchOperation.InverseHexagram)]] ∧
    [(hexAt 1, SearchOperation.NoOp),
      (hexAt 2, SearchOperation.InverseHexagram)].length - 1 = 1 ∧
    count_line_changes [(hexAt 1, SearchOperation.NoOp),
      (hexAt 2, SearchOperation.InverseHexagram)] = 6 := by
  refine ⟨by decide, rfl, by decide⟩

/-- The transformation methods defined on `Hexagram` in `iching.rs`, applied
to one hexagram (`inverse_line` at each of its six positions). -/
def methodResults (h : Hexagram) : List Hexagram :=
  [h.inverse,
   h.inverse_line HexagramLine.First, h.inverse_line HexagramLine.Second,
   h.inverse_line HexagramLine.Third, h.inverse_line HexagramLine.Fourth,
   h.inverse_line HexagramLine.Fifth, h.inverse_line HexagramLine.Sixth,
   h.inverse_bottom_trigram, h.inverse_top_trigram,
   h.reverse, h.reverse_trigrams,
   h.reverse_bottom_trigram, h.reverse_top_trigram,
   h.mirror_trigrams]

/-- C7: no hexagram with the poison number `0` (the marker of a failed
`HEXAGRAM_INDEX` unwrap) is a catalogue member, and every transformation
method of `Hexagram`, applied to any catalogue hexagram, yields a catalogue
member — so the unwrap after the index lookup never panics. -/
theorem spec_C7_thm :
    (∀ l : List Line, Hexagram.mk 0 l ∉ HEXAGRAMS) ∧
    ∀ h ∈ HEXAGRAMS, ∀ r ∈ methodResults h, r ∈ HEXAGRAMS := by
  constructor
  · intro l hl
    have := HEXAGRAMS_number_pos _ hl
    simp at this
  · intro h hm r hr
    have h6 := lines_length_of_mem h hm
    simp only [methodResults, List.mem_cons, List.not_mem_nil, or_false] at hr
    rcases hr with rfl | rfl | rfl | rfl | rfl | rfl | rfl | rfl | rfl |
      rfl | rfl | rfl | rfl | rfl
    · exact apply_mem hm SearchOperation.InverseHexagram
    · exact apply_mem hm (SearchOperation.InverseLine HexagramLine.First)
    · exact apply_mem hm (SearchOperation.InverseLine HexagramLine.Second)
    · exact apply_mem hm (SearchOperation.InverseLine HexagramLine.Third)
    · exact apply_mem hm (SearchOperation.InverseLine HexagramLine.Fourth)
    · exact apply_mem hm (SearchOperation.InverseLine HexagramLine.Fifth)
    · exact apply_mem hm (SearchOperation.InverseLine HexagramLine.Sixth)
    · exact apply_mem hm SearchOperation.InverseBottomTrigram
    · exact apply_mem hm SearchOperation.InverseTopTrigram
    · exact apply_mem hm SearchOperation.ReverseHexagram
    · refine hexLookup_mem ?_
      simp only [Hexagram.trigrams, List.length_append, List.length_reverse,
        List.length_take, List.length_drop, h6]
      omega
    · exact apply_mem hm SearchOperation.ReverseBottomTrigram
    · exact apply_mem hm SearchOperation.ReverseTopTrigram
    · exact apply_mem hm SearchOperation.MirrorTrigrams

/-- C7, witness: the inverse of hexagram 1 is a catalogue member. -/
theorem spec_C7_witness : (hexAt 1).inverse ∈ HEXAGRAMS :=
  spec_C7_thm.2 (hexAt 1) (by decide) ((hexAt 1).inverse)
    (List.mem_cons_self _ _)

/-- The operations the spec declares to be involutions. -/
def involutoryOps : List SearchOperation :=
  [SearchOperation.InverseHexagram, SearchOperation.ReverseHexagram,
   SearchOperation.MirrorTrigrams, SearchOperation.ReverseBottomTrigram,
   SearchOperation.ReverseTopTrigram, SearchOperation.InverseBottomTrigram,
   SearchOperation.InverseTopTrigram,
   SearchOperation.InverseLine HexagramLine.First,
   SearchOperation.InverseLine HexagramLine.Second,
   SearchOperation.InverseLine HexagramLine.Third,
   SearchOperation.InverseLine HexagramLine.Fourth,
   SearchOperation.InverseLine HexagramLine.Fifth,
   SearchOperation.InverseLine HexagramLine.Sixth]

/-- An operation whose line transform is a length-preserving involution on
six-line patterns is an involution on catalogue hexagrams. -/
theorem apply_invo_of_transform (op : SearchOperation)
    (T : List Line → List Line)
    (happly : ∀ g : Hexagram, op.apply g = hexLookup (T g.lines))
    (hlen : ∀ l : List Line, l.length = 6 → (T l).length = 6)
    (hTT : ∀ l : List Line, l.length = 6 → T (T l) = l)
    {h : Hexagram} (hm : h ∈ HEXAGRAMS) : op.apply (op.apply h) = h := by
  have h6 := lines_length_of_mem h hm
  rw [happly h, happly _, hexLookup_lines (hlen _ h6), hTT _ h6]
  exact hexLookup_self hm

theorem flipIdx_flipIdx : ∀ (l : List Line) (i : Nat),
    flipIdx (flipIdx l i) i = l := by
  intro l
  induction l with
  | nil => intro i; rfl
  | cons a t ih =>
    intro i
    cases i with
    | zero => simp [flipIdx, Line.inverse_inverse]
    | succ j => simp [flipIdx, ih j]

theorem inverse_line_invo {h : Hexagram} (hm : h ∈ HEXAGRAMS)
    (pos : HexagramLine) :
    (SearchOperation.InverseLine pos).apply
      ((SearchOperation.InverseLine pos).apply h) = h :=
  apply_invo_of_transform (SearchOperation.InverseLine pos)
    (fun l => flipIdx l pos.line_to_index)
    (fun _ => rfl) (fun l hl => by rw [flipIdx_length, hl])
    (fun l _ => flipIdx_flipIdx l _) hm

/-- C8: each of `InverseHexagram`, `ReverseHexagram`, `MirrorTrigrams`,
`ReverseBottomTrigram`, `ReverseTopTrigram`, `InverseBottomTrigram`,
`InverseTopTrigram` and `InverseLine` (at every fixed position), applied
twice to any catalogue hexagram, returns it: every operation in the
canonical set is an involution. -/
theorem spec_C8_thm :
    ∀ h ∈ HEXAGRAMS, ∀ op ∈ involutoryOps, op.apply (op.apply h) = h := by
  intro h hm op hop
  simp only [involutoryOps, List.mem_cons, List.not_mem_nil, or_false] at hop
  rcases hop with rfl | rfl | rfl | rfl | rfl | rfl | rfl | rfl | rfl |
    rfl | rfl | rfl | rfl
  · refine apply_invo_of_transform SearchOperation.InverseHexagram
      (List.map Line.inverse)
      (fun _ => rfl) (fun l hl => by rw [List.length_map, hl]) ?_ hm
    intro l _
    rw [List.map_map]
    have hcomp : Line.inverse ∘ Line.inverse = id := funext Line.inverse_inverse
    rw [hcomp, List.map_id]
  · exact apply_invo_of_transform SearchOperation.ReverseHexagram
      List.reverse (fun _ => rfl)
      (fun l hl => by rw [List.length_reverse, hl])
      (fun l _ => List.reverse_reverse l) hm
  · refine apply_invo_of_transform SearchOperation.MirrorTrigrams
      (fun l => (l.take 3).reverse ++ (l.drop 3).reverse) (fun _ => rfl)
      (fun l hl => by
        simp only [List.length_append, List.length_reverse, List.length_take,
          List.length_drop, hl]
        omega) ?_ hm
    intro l hl
    obtain ⟨a, b, c, d, e, f, rfl⟩ := exists_six l hl
    rfl
  · refine apply_invo_of_transform SearchOperation.ReverseBottomTrigram
      (fun l => (l.take 3).reverse ++ l.drop 3) (fun _ => rfl)
      (fun l hl => by
        simp only [List.length_append, List.length_reverse, List.length_take,
          List.length_drop, hl]
        omega) ?_ hm
    intro l hl
    obtain ⟨a, b, c, d, e, f, rfl⟩ := exists_six l hl
    rfl
  · refine apply_invo_of_transform SearchOperation.ReverseTopTrigram
      (fun l => l.take 3 ++ (l.drop 3).reverse) (fun _ => rfl)
      (fun l hl => by
        simp only [List.length_append, List.length_reverse, List.length_take,
          List.length_drop, hl]
        omega) ?_ hm
    intro l hl
    obtain ⟨a, b, c, d, e, f, rfl⟩ := exists_six l hl
    rfl
  · refine apply_invo_of_transform SearchOperation.InverseBottomTrigram
      (fun l => (l.take 3).map Line.inverse ++ l.drop 3) (fun _ => rfl)
      (fun l hl => by
        simp only [List.length_append, List.length_map, List.length_take,
          List.length_drop, hl]
        omega) ?_ hm
    intro l hl
    obtain ⟨a, b, c, d, e, f, rfl⟩ := exists_six l hl
    simp [Line.inverse_inverse]
  · refine apply_invo_of_transform SearchOperation.InverseTopTrigram
      (fun l => l.take 3 ++ (l.drop 3).map Line.inverse) (fun _ => rfl)
      (fun l hl => by
        simp only [List.length_append, List.length_map, List.length_take,
          List.length_drop, hl]
        omega) ?_ hm
    intro l hl
    obtain ⟨a, b, c, d, e, f, rfl⟩ := exists_six l hl
    simp [Line.inverse_inverse]
  · exact inverse_line_invo hm HexagramLine.First
  · exact inverse_line_invo hm HexagramLine.Second
  · exact inverse_line_invo hm HexagramLine.Third
  · exact inverse_line_invo hm HexagramLine.Fourth
  · exact inverse_line_invo hm HexagramLine.Fifth
  · exact inverse_line_invo hm HexagramLine.Sixth

/-- C8, witness: inverting hexagram 1 twice returns it. -/
theorem spec_C8_witness :
    SearchOperation.InverseHexagram.apply
      (SearchOperation.InverseHexagram.apply (hexAt 1)) = hexAt 1 :=
  spec_C8_thm (hexAt 1) (by decide) SearchOperation.InverseHexagram
    (List.mem_cons_self _ _)

/-- C9: looking up the catalogue line pattern of any hexagram (or trigram)
returns exactly that entry — in particular a hexagram with the same number —
and the line patterns of both static tables are pairwise distinct. -/
theorem spec_C9_thm :
    (∀ h ∈ HEXAGRAMS, findHexagram h.lines = some h) ∧
    (∀ n, n < 65 → 1 ≤ n →
      (findHexagram (hexAt n).lines).map Hexagram.number = some n) ∧
    (∀ t ∈ TRIGRAMS, findTrigram t.lines = some t) ∧
    (HEXAGRAMS.map Hexagram.lines).Nodup ∧
    (TRIGRAMS.map Trigram.lines).Nodup := by
  refine ⟨by decide, by decide, by decide, by decide, by decide⟩

/-- C9, witness: the pattern of hexagram 1 looks up to hexagram 1. -/
theorem spec_C9_witness :
    findHexagram (hexAt 1).lines = some (hexAt 1) :=
  spec_C9_thm.1 (hexAt 1) (by decide)

/-- The per-pair surviving path list, expressed directly per pair. -/
def survivors (pr : Nat × Nat) : List Path :=
  ((HexagramSearcher.new pr.1 pr.2).map fun sr =>
    sr.find_shortest_paths false).getD []

/-- The first surviving path of a pair (`paths[0]`). -/
def firstSurviving (pr : Nat × Nat) : Path :=
  (survivors pr).headD []

theorem searchPairs_eq_some : ∀ prs : List (Nat × Nat),
    (∀ pr ∈ prs, (1 ≤ pr.1 ∧ pr.1 ≤ 64) ∧ (1 ≤ pr.2 ∧ pr.2 ≤ 64)) →
    searchPairs prs = some (prs.map survivors) := by
  intro prs
  induction prs with
  | nil => intro _; rfl
  | cons pr rest ih =>
    intro hv
    have hpr := hv pr (List.mem_cons_self _ _)
    have hnew := new_eq_some hpr.1 hpr.2
    have hs : survivors pr =
        (⟨hexAt pr.1, hexAt pr.2⟩ :
          HexagramSearcher).find_shortest_paths false := by
      unfold survivors
      rw [hnew]
      rfl
    simp only [searchPairs, hnew, ih fun q hq => hv q (List.mem_cons_of_mem _ hq),
      List.map_cons, hs]

theorem searchPairs_some_elim : ∀ (prs : List (Nat × Nat))
    (sp : List (List Path)), searchPairs prs = some sp →
    sp = prs.map survivors := by
  intro prs
  induction prs with
  | nil =>
    intro sp hsp
    simp only [searchPairs] at hsp
    exact (Option.some.inj hsp).symm
  | cons pr rest ih =>
    intro sp hsp
    simp only [searchPairs] at hsp
    rcases hn : HexagramSearcher.new pr.1 pr.2 with _ | s
    · rw [hn] at hsp
      simp at hsp
    · rw [hn] at hsp
      rcases ht : searchPairs rest with _ | tl
      · rw [ht] at hsp
        simp at hsp
      · rw [ht] at hsp
        have hsv : survivors pr = s.find_shortest_paths false := by
          unfold survivors
          rw [hn]
          rfl
        rw [List.map_cons, ← ih tl ht, hsv]
        exact (Option.some.inj hsp).symm

theorem firstsOf_eq_some : ∀ sps : List (List Path),
    (∀ l ∈ sps, l ≠ []) →
    firstsOf sps = some (sps.map fun l => l.headD []) := by
  intro sps
  induction sps with
  | nil => intro _; rfl
  | cons l rest ih =>
    intro hne
    cases l with
    | nil => exact absurd rfl (hne [] (List.mem_cons_self _ _))
    | cons p t =>
      simp only [firstsOf, List.head?_cons,
        ih fun q hq => hne q (List.mem_cons_of_mem _ hq), List.map_cons,
        List.headD_cons]

theorem firstsOf_some_elim : ∀ (sps : List (List Path))
    (firsts : List Path), firstsOf sps = some firsts →
    firsts = sps.map fun l => l.headD [] := by
  intro sps
  induction sps with
  | nil =>
    intro firsts h
    simp only [firstsOf] at h
    exact (Option.some.inj h).symm
  | cons l rest ih =>
    intro firsts h
    simp only [firstsOf] at h
    rcases hl : l.head? with _ | p
    · rw [hl] at h
      simp at h
    · rw [hl] at h
      rcases ht : firstsOf rest with _ | tl
      · rw [ht] at h
        simp at h
      · rw [ht] at h
        have hpd : l.headD [] = p := by
          cases l with
          | nil => simp at hl
          | cons a t =>
            simp only [List.head?_cons, Option.some.injEq] at hl
            rw [List.headD_cons, hl]
        rw [List.map_cons, ← ih tl ht, hpd]
        exact (Option.some.inj h).symm

theorem foldl_addmod : ∀ (l : List Nat) (init : Nat),
    l.foldl (fun a b => (a + b) % 2 ^ 64) (init % 2 ^ 64) =
      (init + l.sum) % 2 ^ 64 := by
  intro l
  induction l with
  | nil => intro init; simp
  | cons x t ih =>
    intro init
    rw [List.foldl_cons, List.sum_cons]
    have h1 : (init % 2 ^ 64 + x) % 2 ^ 64 = (init + x) % 2 ^ 64 :=
      Nat.mod_add_mod init (2 ^ 64) x
    rw [h1, ih (init + x)]
    congr 1
    omega

/-- The wrapping `u64` sum is the plain sum reduced modulo `2 ^ 64`. -/
theorem sum64_eq (l : List Nat) : sum64 l = l.sum % 2 ^ 64 := by
  have h := foldl_addmod l 0
  simpa [sum64] using h

theorem foldl_mulmod : ∀ (l : List Nat) (init : Nat),
    l.foldl (fun a b => a * b % 2 ^ 128) (init % 2 ^ 128) =
      init * l.prod % 2 ^ 128 := by
  intro l
  induction l with
  | nil => intro init; simp
  | cons x t ih =>
    intro init
    rw [List.foldl_cons, List.prod_cons]
    have h1 : init % 2 ^ 128 * x % 2 ^ 128 = init * x % 2 ^ 128 :=
      Nat.mod_mul_mod
    rw [h1, ih (init * x)]
    congr 1
    ring

/-- The wrapping `u128` product is the plain product reduced modulo
`2 ^ 128`. -/
theorem prod128_eq (l : List Nat) : prod128 l = l.prod % 2 ^ 128 := by
  have h := foldl_mulmod l 1
  have h1 : (1 : Nat) % 2 ^ 128 = 1 := Nat.mod_eq_of_lt (by norm_num)
  rw [h1] at h
  simpa [prod128] using h

/-- C4: on success, `SequenceAnalysis::new` sets `total_ops` to the `u64`
sum over consecutive pairs of the first surviving path's length minus one,
`total_line_changes` to the `u64` sum of the line changes along each pair's
first surviving path, and `total_paths` to the product of the surviving
path counts computed in a 128-bit integer (that is, modulo `2 ^ 128`). -/
theorem spec_C4_thm (seq : List Nat) (a : SequenceAnalysis)
    (hnew : SequenceAnalysis.new seq = some a) :
    a.total_ops = ((consecutivePairs seq).map fun pr =>
      (firstSurviving pr).length - 1).sum % 2 ^ 64 ∧
    a.total_line_changes = ((consecutivePairs seq).map fun pr =>
      count_line_changes (firstSurviving pr)).sum % 2 ^ 64 ∧
    a.total_paths = ((consecutivePairs seq).map fun pr =>
      (survivors pr).length).prod % 2 ^ 128 ∧
    a.shortest_paths = (consecutivePairs seq).map survivors := by
  unfold SequenceAnalysis.new at hnew
  split at hnew
  · simp at hnew
  next sp hsp =>
    unfold SequenceAnalysis.finish at hnew
    split at hnew
    · simp at hnew
    next firsts hf =>
      have hspv : sp = (consecutivePairs seq).map survivors :=
        searchPairs_some_elim _ sp hsp
      have hfv : firsts = sp.map fun l => l.headD [] :=
        firstsOf_some_elim sp firsts hf
      have hfirst : firsts = (consecutivePairs seq).map firstSurviving := by
        rw [hfv, hspv, List.map_map]
        rfl
      have ha : a = { sequence := seq
                      shortest_paths := sp
                      total_ops := sum64 (firsts.map fun p => p.length - 1)
                      total_line_changes := sum64 (firsts.map count_line_changes)
                      total_paths := prod128 (sp.map List.length) } :=
        (Option.some.inj hnew).symm
      refine ⟨?_, ?_, ?_, ?_⟩
      · rw [ha]
        show sum64 (firsts.map fun p => p.length - 1) = _
        rw [sum64_eq, hfirst, List.map_map]
        rfl
      · rw [ha]
        show sum64 (firsts.map count_line_changes) = _
        rw [sum64_eq, hfirst, List.map_map]
        rfl
      · rw [ha]
        show prod128 (sp.map List.length) = _
        rw [prod128_eq, hspv, List.map_map]
        rfl
      · rw [ha]
        exact hspv

/-- The analysis of the sequence `[1, 2]`, the witness value for C4. -/
def exampleAnalysis : SequenceAnalysis :=
  (SequenceAnalysis.new [1, 2]).getD ⟨[], [], 0, 0, 0⟩

/-- C4, witness at the sequence `[1, 2]`. -/
theorem spec_C4_witness :
    SequenceAnalysis.new [1, 2] = some exampleAnalysis ∧
    exampleAnalysis.total_ops = ((consecutivePairs [1, 2]).map fun pr =>
      (firstSurviving pr).length - 1).sum % 2 ^ 64 :=
  ⟨by decide, (spec_C4_thm [1, 2] exampleAnalysis (by decide)).1⟩

theorem firstsOf_eq_none : ∀ sps : List (List Path), [] ∈ sps →
    firstsOf sps = none := by
  intro sps
  induction sps with
  | nil => intro h; simp at h
  | cons l rest ih =>
    intro h
    rcases List.mem_cons.mp h with rfl | h'
    · rfl
    · cases hl : l.head? with
      | none => simp [firstsOf, hl]
      | some p => simp [firstsOf, hl, ih h']

theorem seqNew_some_arg (seq : List Nat) (sp : List (List Path))
    (hsp : searchPairs (consecutivePairs seq) = some sp) :
    SequenceAnalysis.new seq = SequenceAnalysis.finish seq sp := by
  unfold SequenceAnalysis.new
  rw [hsp]

theorem finish_none_arg (seq : List Nat) (sp : List (List Path))
    (hf : firstsOf sp = none) : SequenceAnalysis.finish seq sp = none := by
  unfold SequenceAnalysis.finish
  rw [hf]

theorem finish_some_isSome (seq : List Nat) (sp : List (List Path))
    (firsts : List Path) (hf : firstsOf sp = some firsts) :
    (SequenceAnalysis.finish seq sp).isSome := by
  unfold SequenceAnalysis.finish
  rw [hf]
  rfl

/-- C5: for every sequence of valid hexagram numbers with no two equal
consecutive elements, `SequenceAnalysis::new` succeeds — every `paths[0]`
indexing is in bounds; and for the sequence `[1, 1]`, which has two equal
consecutive elements, the surviving path list of that pair is empty and the
`paths[0]` indexing is out of bounds, so the construction fails. -/
theorem spec_C5_thm :
    (∀ seq : List Nat, (∀ x ∈ seq, 1 ≤ x ∧ x ≤ 64) →
      (∀ pr ∈ consecutivePairs seq, pr.1 ≠ pr.2) →
      (SequenceAnalysis.new seq).isSome) ∧
    ((HexagramSearcher.new 1 1).map fun sr =>
        sr.find_shortest_paths false) = some [] ∧
    SequenceAnalysis.new [1, 1] = none := by
  refine ⟨?_, ?_, ?_⟩
  · intro seq hval hne
    have hv : ∀ pr ∈ consecutivePairs seq,
        (1 ≤ pr.1 ∧ pr.1 ≤ 64) ∧ (1 ≤ pr.2 ∧ pr.2 ≤ 64) := by
      intro pr hpr
      have hm1 : pr.1 ∈ seq := (List.of_mem_zip hpr).1
      have hm2 : pr.2 ∈ seq.tail := (List.of_mem_zip hpr).2
      exact ⟨hval pr.1 hm1, hval pr.2 (List.mem_of_mem_tail hm2)⟩
    have hsv : ∀ pr ∈ consecutivePairs seq, survivors pr ≠ [] := by
      intro pr hpr
      have hb := hv pr hpr
      unfold survivors
      rw [new_eq_some hb.1 hb.2]
      simp only [Option.map_some', Option.getD_some]
      exact fsp_ne_nil_of_ne hb.1.1 hb.1.2 hb.2.1 hb.2.2 (hne pr hpr) false
    rw [seqNew_some_arg seq _ (searchPairs_eq_some _ hv)]
    exact finish_some_isSome seq _ _ (firstsOf_eq_some _ (by
      intro l hl
      obtain ⟨pr, hpr, rfl⟩ := List.mem_map.mp hl
      exact hsv pr hpr))
  · rw [new_eq_some (by omega) (by omega), Option.map_some']
    exact congrArg some (fsp_nil_of_eq _ rfl _)
  · have h11 : HexagramSearcher.new 1 1 = some ⟨hexAt 1, hexAt 1⟩ :=
      new_eq_some (by omega) (by omega)
    have hfsp : (⟨hexAt 1, hexAt 1⟩ :
        HexagramSearcher).find_shortest_paths false = [] :=
      fsp_nil_of_eq _ rfl _
    have hsp : searchPairs (consecutivePairs [1, 1]) = some [[]] := by
      have hpairs : consecutivePairs [1, 1] = [(1, 1)] := rfl
      rw [hpairs]
      simp only [searchPairs, h11, hfsp]
    rw [seqNew_some_arg [1, 1] [[]] hsp]
    exact finish_none_arg _ _ (firstsOf_eq_none _ (List.mem_singleton_self _))

/-- C5, witness at the sequence `[1, 2]`. -/
theorem spec_C5_witness : (SequenceAnalysis.new [1, 2]).isSome :=
  spec_C5_thm.1 [1, 2] (by decide) (by decide)

end Iching
